import Mathlib

/-!
Shallow embedding of the gotoon TOON encoder (github.com/k8scat/gotoon).

Translation conventions, function by function from the Go source:

* Go `string` is Lean `String`; the byte-level operations used by the encoder
  (`strings.Contains`, `strings.ReplaceAll` with single-character patterns,
  `strings.TrimSpace`, `strings.HasPrefix`) only ever involve whole code
  points here, so they are modelled on the underlying `List Char`
  (UTF-8 byte order coincides with code-point order).
* The normalized value tree (`normalize.go` produces `nil`, `bool`,
  `float64`, `string`, `[]interface{}`, `map[string]interface{}`) is the
  inductive `Value`.  A Go map is represented as an association list of
  key/value pairs; the encoder only observes it through its (sorted) key
  list and by key lookup, exactly as the source does, so the list order
  plays the role of the map's arbitrary iteration order.
* `float64` numbers: normalization rules out NaN, infinities and negative
  zero.  `formatNumber` takes the `strconv.FormatInt` path whenever
  `f == float64(int64(f))`; we model the integral subset of `float64`
  (`Int`), which is the only part of the number grammar any structural
  claim depends on; the shortest-round-trip formatting of non-integral
  doubles is a property of IEEE-754 binary64 arithmetic and is out of
  scope for this embedding.
* The `LineWriter` of `writer.go` is append-only: `Push(depth, content)`
  appends the single string `strings.Repeat(indentationString, depth) +
  content` and `String()` joins the accumulated lines with "\n".  Each
  encoding function is therefore modelled as returning the list of lines
  it appends (already indented, as `Push` stores them); the writer state
  is recovered by concatenation.  `NewLineWriter` calls
  `strings.Repeat(" ", indentSize)`, which panics in Go when
  `indentSize < 0`; that panic is modelled by `Option`: `goRepeat`
  returns `none` exactly when Go panics, and `Encode` propagates it.
-/

/-- Unicode white space exactly as Go's `unicode.IsSpace` (used by
`strings.TrimSpace`): the Latin-1 spaces plus the `White_Space` property
code points. -/
def goIsSpace (c : Char) : Bool :=
  let n := c.toNat
  n = 0x20 || n = 0x09 || n = 0x0a || n = 0x0b || n = 0x0c || n = 0x0d ||
  n = 0x85 || n = 0xa0 || n = 0x1680 || (0x2000 ≤ n && n ≤ 0x200a) ||
  n = 0x2028 || n = 0x2029 || n = 0x202f || n = 0x205f || n = 0x3000

/-- Go `strings.TrimSpace`: drop leading and trailing white space. -/
def trimSpace (s : String) : String :=
  ⟨(((s.data.dropWhile goIsSpace).reverse.dropWhile goIsSpace).reverse)⟩

/-- Substring containment on character lists (Go `strings.Contains`);
`strings.Contains(s, "")` is `true`. -/
def containsSub : List Char → List Char → Bool
  | _, [] => true
  | [], _ :: _ => false
  | c :: rest, sub => sub.isPrefixOf (c :: rest) || containsSub rest sub

/-- Go `strings.Contains(s, sub)`. -/
def goContains (s sub : String) : Bool :=
  containsSub s.data sub.data

/-- Go `strings.ContainsAny(s, chars)`: some character of `chars` occurs
in `s`. -/
def goContainsAny (s chars : String) : Bool :=
  s.data.any (fun c => chars.data.contains c)

/-- Go `strings.Repeat(s, n)` for a non-negative count. -/
def strRepeat (s : String) : Nat → String
  | 0 => ""
  | n + 1 => s ++ strRepeat s n

/-- Go `strings.Repeat(s, count)` with an `int` count: panics (modelled
as `none`) when the count is negative. -/
def goRepeat (s : String) (count : Int) : Option String :=
  if count < 0 then none else some (strRepeat s count.toNat)

/-- Go `strings.ReplaceAll(s, old, new)` when `old` is the single
character `c`: every occurrence of `c` is replaced by `r`. -/
def replaceAllChar (s : String) (c : Char) (r : String) : String :=
  ⟨s.data.flatMap (fun x => if x = c then r.data else [x])⟩

-- Constants from `constants.go`.

/-- Constant `ListItemMarker` from `constants.go`. -/
def ListItemMarker : String := "-"

/-- Constant `ListItemPrefix` from `constants.go` (the bullet "- "). -/
def ListItemBullet : String := "- "

/-- Constant `Colon`. -/
def Colon : String := ":"

/-- Constant `OpenBracket`. -/
def OpenBracket : String := "["

/-- Constant `CloseBracket`. -/
def CloseBracket : String := "]"

/-- Constant `OpenBrace`. -/
def OpenBrace : String := "\x7b"

/-- Constant `CloseBrace`. -/
def CloseBrace : String := "\x7d"

/-- Constant `NullLiteral`. -/
def NullLiteral : String := "null"

/-- Constant `TrueLiteral`. -/
def TrueLiteral : String := "true"

/-- Constant `FalseLiteral`. -/
def FalseLiteral : String := "false"

/-- Constant `Backslash`. -/
def Backslash : String := "\\"

/-- Constant `DoubleQuote`. -/
def DoubleQuote : String := "\""

/-- Constant `DefaultDelimiter` (the comma). -/
def DefaultDelimiter : String := ","

/-- Helper for the numeric-literal matcher: consume one or more ASCII
digits (`\d+`); `none` when there is no leading digit, otherwise the
rest of the input. -/
def digits1 (l : List Char) : Option (List Char) :=
  let d := l.takeWhile (fun c => c.isDigit)
  if d.isEmpty then none else some (l.drop d.length)

/-- Matcher for the optional exponent part `(?:[eE][+-]?\d+)?$` of
`numericPattern`.  Greedy matching is equivalent to the regex here
because a digit run is never followed by anything a later alternative
could consume. -/
def expTail : List Char → Bool
  | [] => true
  | c :: r =>
    (c = 'e' || c = 'E') &&
    (match r with
     | [] => false
     | s :: r2 =>
       if s = '+' || s = '-' then digits1 r2 = some []
       else digits1 r = some [])

/-- Matcher for the optional fraction `(?:\.\d+)?` followed by the
exponent part of `numericPattern`. -/
def fracExpTail : List Char → Bool
  | '.' :: r =>
    (match digits1 r with
     | some rest => expTail rest
     | none => false)
  | l => expTail l

/-- Matcher for the first `numericPattern` alternative
`^-?\d+(?:\.\d+)?(?:[eE][+-]?\d+)?$`. -/
def numericMain : List Char → Bool
  | '-' :: r =>
    (match digits1 r with
     | some rest => fracExpTail rest
     | none => false)
  | l =>
    (match digits1 l with
     | some rest => fracExpTail rest
     | none => false)

/-- Matcher for the second `numericPattern` alternative `^0\d+$`
(leading-zero integer). -/
def leadingZeroInt : List Char → Bool
  | '0' :: r => !r.isEmpty && r.all (fun c => c.isDigit)
  | _ => false

/-- Function `isNumericLike` from `primitives.go`:
`numericPattern.MatchString(value)` for the anchored pattern
`^-?\d+(?:\.\d+)?(?:[eE][+-]?\d+)?$|^0\d+$`. -/
def isNumericLike (value : String) : Bool :=
  numericMain value.data || leadingZeroInt value.data

/-- Function `isSafeUnquoted` from `primitives.go`. -/
def isSafeUnquoted (value : String) (delimiter : String) : Bool :=
  if value = "" then false
  else if trimSpace value ≠ value then false
  else if value = TrueLiteral ∨ value = FalseLiteral ∨ value = NullLiteral then false
  else if isNumericLike value then false
  else if goContains value Colon then false
  else if goContains value DoubleQuote || goContains value Backslash then false
  else if goContainsAny value "[]\x7b\x7d" then false
  else if goContainsAny value "\n\r\t" then false
  else if goContains value delimiter then false
  else if ListItemMarker.data.isPrefixOf value.data then false
  else true

/-- Function `escapeString` from `primitives.go`: five sequential
`strings.ReplaceAll` passes, in this order. -/
def escapeString (value : String) : String :=
  let v1 := replaceAllChar value '\\' (Backslash ++ Backslash)
  let v2 := replaceAllChar v1 '"' (Backslash ++ DoubleQuote)
  let v3 := replaceAllChar v2 '\n' (Backslash ++ "n")
  let v4 := replaceAllChar v3 '\r' (Backslash ++ "r")
  replaceAllChar v4 '\t' (Backslash ++ "t")

/-- Function `encodeStringLiteral` from `primitives.go`. -/
def encodeStringLiteral (value : String) (delimiter : String) : String :=
  if isSafeUnquoted value delimiter then value
  else DoubleQuote ++ escapeString value ++ DoubleQuote

/-- Function `formatNumber` from `primitives.go`, restricted to the
integral subset of `float64` (see the header comment): when
`f == float64(int64(f))` the source returns `strconv.FormatInt(int64(f), 10)`. -/
def formatNumber (n : Int) : String :=
  toString n

/-- Function `isValidUnquotedKey` from `primitives.go`:
`^[A-Za-z_][\w.]*$` (Go `\w` is `[0-9A-Za-z_]`). -/
def isValidUnquotedKey (key : String) : Bool :=
  match key.data with
  | [] => false
  | c :: rest =>
    (c.isAlpha || c = '_') && rest.all (fun x => x.isAlphanum || x = '_' || x = '.')

/-- Function `encodeKey` from `primitives.go`. -/
def encodeKey (key : String) : String :=
  if isValidUnquotedKey key then key
  else DoubleQuote ++ escapeString key ++ DoubleQuote

/-- The normalized value tree operated on by `encoders.go`: the possible
results of `normalizeValue` (`nil`, `bool`, `float64`, `string`,
`[]interface{}`, `map[string]interface{}`). -/
inductive Value where
  | null : Value
  | bool : Bool → Value
  | num : Int → Value
  | str : String → Value
  | arr : List Value → Value
  | obj : List (String × Value) → Value

/-- Record `EncodeOptions` from `types.go`.  `Indent` is a Go `int`,
hence `Int` (negative values are representable and reach
`strings.Repeat`). -/
structure EncodeOptions where
  Indent : Int
  Delimiter : String
  LengthMarker : Bool

/-- Function `defaultOptions` from `types.go`. -/
def defaultOptions : EncodeOptions :=
  { Indent := 2, Delimiter := DefaultDelimiter, LengthMarker := false }

/-- Function `isPrimitive` from `normalize.go` (on normalized values). -/
def isPrimitive : Value → Bool
  | .null => true
  | .bool _ => true
  | .num _ => true
  | .str _ => true
  | _ => false

/-- Function `isArray` from `normalize.go` (on normalized values). -/
def isArray : Value → Bool
  | .arr _ => true
  | _ => false

/-- Function `isObject` from `normalize.go` (on normalized values). -/
def isObject : Value → Bool
  | .obj _ => true
  | _ => false

/-- Function `isArrayOfPrimitives` from `normalize.go`. -/
def isArrayOfPrimitives (arr : List Value) : Bool :=
  arr.all isPrimitive

/-- Function `isArrayOfArrays` from `normalize.go`. -/
def isArrayOfArrays (arr : List Value) : Bool :=
  arr.all isArray

/-- Function `isArrayOfObjects` from `normalize.go`. -/
def isArrayOfObjects (arr : List Value) : Bool :=
  arr.all isObject

/-- Pair list of an object value; the Go sources use a checked type
assertion `item.(map[string]interface{})` only after `isArrayOfObjects`,
so the default branch is never reached there. -/
def toObj : Value → List (String × Value)
  | .obj o => o
  | _ => []

/-- Function `encodePrimitive` from `primitives.go`; its `default`
branch returns `NullLiteral` for non-primitive input. -/
def encodePrimitive (value : Value) (delimiter : String) : String :=
  match value with
  | .null => NullLiteral
  | .bool b => if b then TrueLiteral else FalseLiteral
  | .num n => formatNumber n
  | .str s => encodeStringLiteral s delimiter
  | _ => NullLiteral

/-- Function `joinEncodedValues` from `primitives.go`. -/
def joinEncodedValues (values : List Value) (delimiter : String) : String :=
  String.intercalate delimiter (values.map (fun v => encodePrimitive v delimiter))

/-- Record `headerOptions` from `primitives.go`. -/
structure headerOptions where
  key : String
  fields : List String
  delimiter : String
  lengthMarker : Bool

/-- Function `formatHeader` from `primitives.go`. -/
def formatHeader (length : Nat) (options : headerOptions) : String :=
  (if options.key ≠ "" then encodeKey options.key else "") ++
  OpenBracket ++
  (if options.lengthMarker then "#" else "") ++
  toString length ++
  (if options.delimiter ≠ DefaultDelimiter then options.delimiter else "") ++
  CloseBracket ++
  (if options.fields.isEmpty then ""
   else OpenBrace ++
     String.intercalate options.delimiter (options.fields.map encodeKey) ++
     CloseBrace) ++
  Colon

/-- Function `formatInlineArray` from `primitives.go`. -/
def formatInlineArray (values : List Value) (delimiter : String)
    (keyPre : String) (lengthMarker : Bool) : String :=
  let header := formatHeader values.length
    { key := keyPre, fields := [], delimiter := delimiter, lengthMarker := lengthMarker }
  if values.isEmpty then header
  else header ++ " " ++ joinEncodedValues values delimiter

/-- Method `LineWriter.Push` from `writer.go`, as the single line it
appends: the content prefixed by `depth` copies of the writer's
indentation string. -/
def pushLine (ind : String) (depth : Nat) (content : String) : String :=
  strRepeat ind depth ++ content

/-- Lexicographic code-point order on character lists; for UTF-8 encoded
strings this coincides with Go's byte-wise string order used by
`sort.Strings`. -/
def charListLe : List Char → List Char → Bool
  | [], _ => true
  | _ :: _, [] => false
  | a :: as, b :: bs =>
    if a.toNat < b.toNat then true
    else if b.toNat < a.toNat then false
    else charListLe as bs

/-- String order used by `sort.Strings` in the source. -/
def strLe (s t : String) : Prop :=
  charListLe s.data t.data = true

instance : DecidableRel strLe := fun s t =>
  inferInstanceAs (Decidable (charListLe s.data t.data = true))

theorem charListLe_total : ∀ a b, charListLe a b = true ∨ charListLe b a = true
  | [], _ => Or.inl rfl
  | _ :: _, [] => Or.inr rfl
  | a :: as, b :: bs => by
    by_cases hab : a.toNat < b.toNat
    · exact Or.inl (by simp [charListLe, hab])
    · by_cases hba : b.toNat < a.toNat
      · exact Or.inr (by simp [charListLe, hba, hab])
      · rcases charListLe_total as bs with h | h
        · exact Or.inl (by simp [charListLe, hab, hba, h])
        · exact Or.inr (by simp [charListLe, hab, hba, h])

theorem charListLe_trans : ∀ a b c, charListLe a b = true → charListLe b c = true →
    charListLe a c = true
  | [], _, _, _, _ => rfl
  | _ :: _, [], _, h, _ => by simp [charListLe] at h
  | _ :: _, _ :: _, [], _, h => by simp [charListLe] at h
  | a :: as, b :: bs, c :: cs, h1, h2 => by
    simp only [charListLe] at h1 h2 ⊢
    by_cases g1 : a.toNat < b.toNat
    · by_cases g2 : b.toNat < c.toNat
      · simp [show a.toNat < c.toNat by omega]
      · rw [if_neg g2] at h2
        by_cases g2x : c.toNat < b.toNat
        · rw [if_pos g2x] at h2; simp at h2
        · simp [show a.toNat < c.toNat by omega]
    · rw [if_neg g1] at h1
      by_cases g1x : b.toNat < a.toNat
      · rw [if_pos g1x] at h1; simp at h1
      · rw [if_neg g1x] at h1
        by_cases g2 : b.toNat < c.toNat
        · simp [show a.toNat < c.toNat by omega]
        · rw [if_neg g2] at h2
          by_cases g2x : c.toNat < b.toNat
          · rw [if_pos g2x] at h2; simp at h2
          · rw [if_neg g2x] at h2
            rw [if_neg (show ¬ a.toNat < c.toNat by omega),
              if_neg (show ¬ c.toNat < a.toNat by omega)]
            exact charListLe_trans as bs cs h1 h2

theorem charListLe_antisymm : ∀ a b, charListLe a b = true → charListLe b a = true →
    a = b
  | [], [], _, _ => rfl
  | [], _ :: _, _, h => by simp [charListLe] at h
  | _ :: _, [], h, _ => by simp [charListLe] at h
  | a :: as, b :: bs, h1, h2 => by
    simp only [charListLe] at h1 h2
    by_cases g1 : a.toNat < b.toNat
    · rw [if_neg (show ¬ b.toNat < a.toNat by omega), if_pos g1] at h2; simp at h2
    · rw [if_neg g1] at h1
      by_cases g1x : b.toNat < a.toNat
      · rw [if_pos g1x] at h1; simp at h1
      · rw [if_neg g1x] at h1
        rw [if_neg (show ¬ b.toNat < a.toNat by omega), if_neg g1] at h2
        have hab : a = b := Char.ext (UInt32.ext (by
          simp only [Char.toNat] at g1 g1x; omega))
        subst hab
        rw [charListLe_antisymm as bs h1 h2]

instance : IsTotal String strLe :=
  ⟨fun s t => charListLe_total s.data t.data⟩

instance : IsTrans String strLe :=
  ⟨fun s t u => charListLe_trans s.data t.data u.data⟩

instance : IsAntisymm String strLe :=
  ⟨fun s t h1 h2 => by
    cases s; cases t
    exact congrArg String.mk (charListLe_antisymm _ _ h1 h2)⟩

/-- Go `sort.Strings` (ascending byte order). -/
def sortStrings (l : List String) : List String :=
  l.insertionSort strLe

/-- Key order on object pairs: compare the keys only.  Sorting the pair
list by this order models the source pattern of sorting the key slice
and then indexing the map. -/
def keyLE (p q : String × Value) : Prop :=
  strLe p.1 q.1

instance : DecidableRel keyLE := fun p q =>
  inferInstanceAs (Decidable (strLe p.1 q.1))

instance : IsTotal (String × Value) keyLE :=
  ⟨fun p q => IsTotal.total (r := strLe) p.1 q.1⟩

instance : IsTrans (String × Value) keyLE :=
  ⟨fun p q u h1 h2 => Trans.trans (r := strLe) (s := strLe) h1 h2⟩

/-- Sort an object's pair list in ascending key order. -/
def sortPairs (l : List (String × Value)) : List (String × Value) :=
  l.insertionSort keyLE

theorem perm_sizeOf_eq {α : Type} [SizeOf α] {l1 l2 : List α} (h : l1.Perm l2) :
    sizeOf l1 = sizeOf l2 := by
  induction h with
  | nil => rfl
  | cons x _ ih => simp [ih]
  | swap x y l => simp; omega
  | trans _ _ ih1 ih2 => omega

theorem sortPairs_sizeOf (l : List (String × Value)) :
    sizeOf (sortPairs l) = sizeOf l :=
  perm_sizeOf_eq (List.perm_insertionSort keyLE l)

/-- Function `encodeInlinePrimitiveArray` from `encoders.go`. -/
def encodeInlinePrimitiveArray (keyPre : String) (values : List Value) (ind : String)
    (depth : Nat) (opts : EncodeOptions) : List String :=
  [pushLine ind depth (formatInlineArray values opts.Delimiter keyPre opts.LengthMarker)]

/-- Function `encodeArrayOfArraysAsListItems` from `encoders.go`: header
line, then one bullet with the inline rendering per sub-array (items that
do not type-assert to a primitive slice produce nothing, as in the
source loop). -/
def encodeArrayOfArraysAsListItems (keyPre : String) (arrays : List Value) (ind : String)
    (depth : Nat) (opts : EncodeOptions) : List String :=
  pushLine ind depth (formatHeader arrays.length
    { key := keyPre, fields := [], delimiter := opts.Delimiter,
      lengthMarker := opts.LengthMarker }) ::
  arrays.flatMap (fun item =>
    match item with
    | .arr a =>
      if isArrayOfPrimitives a then
        [pushLine ind (depth + 1)
          (ListItemBullet ++ formatInlineArray a opts.Delimiter "" opts.LengthMarker)]
      else []
    | _ => [])

/-- The inner per-element check of `encodeArray` strategy 2: every
element that is a sub-array consists of primitives only. -/
def allPrimitiveSubArrays (arr : List Value) : Bool :=
  arr.all (fun item =>
    match item with
    | .arr a => isArrayOfPrimitives a
    | _ => true)

/-- Function `isTabularArray` from `encoders.go`: every object has
exactly `header.length` keys and a primitive value under every header
key. -/
def isTabularArray (objects : List (List (String × Value))) (header : List String) : Bool :=
  objects.all (fun obj =>
    obj.length = header.length &&
    header.all (fun key =>
      match obj.lookup key with
      | some value => isPrimitive value
      | none => false))

/-- Function `detectTabularHeader` from `encoders.go`. -/
def detectTabularHeader (objects : List (List (String × Value))) : Option (List String) :=
  match objects with
  | [] => none
  | firstObj :: _ =>
    if firstObj.isEmpty then none
    else
      let firstKeys := sortStrings (firstObj.map Prod.fst)
      if isTabularArray objects firstKeys then some firstKeys else none

/-- Function `writeTabularRows` from `encoders.go`; a missing key reads
the map's zero value `nil`, i.e. `Value.null` (unreachable after a
successful `detectTabularHeader`). -/
def writeTabularRows (objects : List (List (String × Value))) (header : List String)
    (ind : String) (depth : Nat) (opts : EncodeOptions) : List String :=
  objects.map (fun obj =>
    pushLine ind depth (joinEncodedValues
      (header.map (fun key => (obj.lookup key).getD .null)) opts.Delimiter))

/-- Function `encodeArrayOfObjectsAsTabular` from `encoders.go`. -/
def encodeArrayOfObjectsAsTabular (keyPre : String) (objects : List (List (String × Value)))
    (header : List String) (ind : String) (depth : Nat) (opts : EncodeOptions) :
    List String :=
  pushLine ind depth (formatHeader objects.length
    { key := keyPre, fields := header, delimiter := opts.Delimiter,
      lengthMarker := opts.LengthMarker }) ::
  writeTabularRows objects header ind (depth + 1) opts

mutual

/-- Function `encodeObject` from `encoders.go`: collect the keys, sort
them, and emit each pair in sorted order. -/
def encodeObject (obj : List (String × Value)) (ind : String) (depth : Nat)
    (opts : EncodeOptions) : List String :=
  encodePairs (sortPairs obj) ind depth opts
termination_by 4 * sizeOf obj + 6
decreasing_by simp only [sortPairs_sizeOf]; omega

/-- The `for _, key := range keys` loop of `encodeObject` (also the
remaining-keys loop at the end of `encodeObjectAsListItem`): the pair
list is already sorted by the callers. -/
def encodePairs (pairs : List (String × Value)) (ind : String) (depth : Nat)
    (opts : EncodeOptions) : List String :=
  match pairs with
  | [] => []
  | (key, value) :: rest =>
    encodeKeyValuePair key value ind depth opts ++ encodePairs rest ind depth opts
termination_by 4 * sizeOf pairs + 5
decreasing_by all_goals first | (simp; done) | (simp; omega) | omega

/-- Function `encodeKeyValuePair` from `encoders.go`. -/
def encodeKeyValuePair (key : String) (value : Value) (ind : String) (depth : Nat)
    (opts : EncodeOptions) : List String :=
  match value with
  | .arr a => encodeArray key a ind depth opts
  | .obj o =>
    if o.isEmpty then [pushLine ind depth (encodeKey key ++ Colon)]
    else pushLine ind depth (encodeKey key ++ Colon) ::
      encodeObject o ind (depth + 1) opts
  | v => [pushLine ind depth (encodeKey key ++ Colon ++ " " ++ encodePrimitive v opts.Delimiter)]
termination_by 4 * sizeOf value + 4
decreasing_by all_goals first | (simp; done) | (simp; omega) | omega

/-- Function `encodeArray` from `encoders.go`: the four-way strategy
selection. -/
def encodeArray (key : String) (arr : List Value) (ind : String) (depth : Nat)
    (opts : EncodeOptions) : List String :=
  if arr.isEmpty then
    [pushLine ind depth (formatHeader 0
      { key := key, fields := [], delimiter := opts.Delimiter,
        lengthMarker := opts.LengthMarker })]
  else if isArrayOfPrimitives arr then
    encodeInlinePrimitiveArray key arr ind depth opts
  else if isArrayOfArrays arr && allPrimitiveSubArrays arr then
    encodeArrayOfArraysAsListItems key arr ind depth opts
  else if isArrayOfObjects arr then
    match detectTabularHeader (arr.map toObj) with
    | some header => encodeArrayOfObjectsAsTabular key (arr.map toObj) header ind depth opts
    | none => encodeMixedArrayAsListItems key arr ind depth opts
  else
    encodeMixedArrayAsListItems key arr ind depth opts
termination_by 4 * sizeOf arr + 3
decreasing_by all_goals omega

/-- Function `encodeMixedArrayAsListItems` from `encoders.go`: header
line, then the per-element loop. -/
def encodeMixedArrayAsListItems (keyPre : String) (items : List Value) (ind : String)
    (depth : Nat) (opts : EncodeOptions) : List String :=
  pushLine ind depth (formatHeader items.length
    { key := keyPre, fields := [], delimiter := opts.Delimiter,
      lengthMarker := opts.LengthMarker }) ::
  encodeListItemsLoop items ind depth opts
termination_by 4 * sizeOf items + 2
decreasing_by all_goals omega

/-- The `for _, item := range items` loop of
`encodeMixedArrayAsListItems`: a primitive gets a bullet line, a
sub-array gets a bullet line only when all its elements are primitive
(otherwise the source emits nothing for it), an object is rendered via
`encodeObjectAsListItem`. -/
def encodeListItemsLoop (items : List Value) (ind : String) (depth : Nat)
    (opts : EncodeOptions) : List String :=
  match items with
  | [] => []
  | item :: rest =>
    (match item with
     | .arr a =>
       if isArrayOfPrimitives a then
         [pushLine ind (depth + 1)
           (ListItemBullet ++ formatInlineArray a opts.Delimiter "" opts.LengthMarker)]
       else []
     | .obj o => encodeObjectAsListItem o ind (depth + 1) opts
     | v => [pushLine ind (depth + 1) (ListItemBullet ++ encodePrimitive v opts.Delimiter)]) ++
    encodeListItemsLoop rest ind depth opts
termination_by 4 * sizeOf items + 1
decreasing_by all_goals first | (simp; done) | (simp; omega) | omega

/-- Function `encodeObjectAsListItem` from `encoders.go`.  The source
checks `isPrimitive(firstValue)` first, then the array cases, then the
object case; the compound patterns below make the same distinction. -/
def encodeObjectAsListItem (obj : List (String × Value)) (ind : String) (depth : Nat)
    (opts : EncodeOptions) : List String :=
  match h : sortPairs obj with
  | [] => [pushLine ind depth ListItemMarker]
  | (firstKey, .arr a) :: restPairs =>
    (if isArrayOfPrimitives a then
       [pushLine ind depth
         (ListItemBullet ++ formatInlineArray a opts.Delimiter firstKey opts.LengthMarker)]
     else if isArrayOfObjects a then
       match detectTabularHeader (a.map toObj) with
       | some header =>
         pushLine ind depth (ListItemBullet ++ formatHeader a.length
           { key := firstKey, fields := header, delimiter := opts.Delimiter,
             lengthMarker := opts.LengthMarker }) ::
         writeTabularRows (a.map toObj) header ind (depth + 1) opts
       | none =>
         pushLine ind depth (ListItemBullet ++ encodeKey firstKey ++
           OpenBracket ++ toString a.length ++ CloseBracket ++ Colon) ::
         objItemsLoop a ind (depth + 1) opts
     else
       pushLine ind depth (ListItemBullet ++ encodeKey firstKey ++
         OpenBracket ++ toString a.length ++ CloseBracket ++ Colon) ::
       complexItemsLoop a ind (depth + 1) opts) ++
    encodePairs restPairs ind (depth + 1) opts
  | (firstKey, .obj nested) :: restPairs =>
    (if nested.isEmpty then
       [pushLine ind depth (ListItemBullet ++ encodeKey firstKey ++ Colon)]
     else
       pushLine ind depth (ListItemBullet ++ encodeKey firstKey ++ Colon) ::
       encodeObject nested ind (depth + 2) opts) ++
    encodePairs restPairs ind (depth + 1) opts
  | (firstKey, v) :: restPairs =>
    [pushLine ind depth
      (ListItemBullet ++ encodeKey firstKey ++ Colon ++ " " ++
        encodePrimitive v opts.Delimiter)] ++
    encodePairs restPairs ind (depth + 1) opts
termination_by 4 * sizeOf obj + 2
decreasing_by
  all_goals
    (have hs := sortPairs_sizeOf obj;
     rw [h] at hs;
     simp at hs;
     simp;
     omega)

/-- The fall-back loop of `encodeObjectAsListItem` for a first value
that is a non-tabular array of objects: only object items are emitted. -/
def objItemsLoop (items : List Value) (ind : String) (depth : Nat)
    (opts : EncodeOptions) : List String :=
  match items with
  | [] => []
  | item :: rest =>
    (match item with
     | .obj o => encodeObjectAsListItem o ind depth opts
     | _ => []) ++
    objItemsLoop rest ind depth opts
termination_by 4 * sizeOf items + 1
decreasing_by all_goals first | (simp; done) | (simp; omega) | omega

/-- The complex-arrays loop of `encodeObjectAsListItem` (first value an
array that is neither all-primitive nor all-object): primitives,
primitive sub-arrays and objects are emitted, anything else produces
nothing. -/
def complexItemsLoop (items : List Value) (ind : String) (depth : Nat)
    (opts : EncodeOptions) : List String :=
  match items with
  | [] => []
  | item :: rest =>
    (match item with
     | .arr ia =>
       if isArrayOfPrimitives ia then
         [pushLine ind depth
           (ListItemBullet ++ formatInlineArray ia opts.Delimiter "" opts.LengthMarker)]
       else []
     | .obj o => encodeObjectAsListItem o ind depth opts
     | v => [pushLine ind depth (ListItemBullet ++ encodePrimitive v opts.Delimiter)]) ++
    complexItemsLoop rest ind depth opts
termination_by 4 * sizeOf items + 1
decreasing_by all_goals first | (simp; done) | (simp; omega) | omega

end

/-- Function `encodeValue` from `encoders.go` together with the
`LineWriter` construction: a primitive is returned directly; otherwise a
writer is created (`none` models the Go panic on a negative indent) and
the lines are joined with newlines. -/
def encodeValue (value : Value) (opts : EncodeOptions) : Option String :=
  if isPrimitive value then
    some (encodePrimitive value opts.Delimiter)
  else
    match goRepeat " " opts.Indent with
    | none => none
    | some ind =>
      let lines : List String :=
        match value with
        | .arr a => encodeArray "" a ind 0 opts
        | .obj o => encodeObject o ind 0 opts
        | _ => []
      some (String.intercalate "\n" lines)

/-- Function `Encode` from `toon.go`, on an already-normalized value
(normalization is the external collaborator of the spec): resolve the
options, encode, and return.  The Go function's `error` result is always
`nil`; the `Option` models the only abnormal exit, the
`strings.Repeat` panic on a negative indent. -/
def Encode (input : Value) (opts : EncodeOptions) : Option String :=
  encodeValue input opts

/-! Bridges between the code-level string tests and their character-level
statements. -/

theorem containsSub_single (l : List Char) (c : Char) :
    containsSub l [c] = true ↔ c ∈ l := by
  induction l with
  | nil => simp [containsSub]
  | cons x rest ih =>
    simp only [containsSub, List.isPrefixOf, Bool.or_eq_true, Bool.and_eq_true, ih,
      List.mem_cons]
    constructor
    · rintro (⟨h, _⟩ | h)
      · exact Or.inl (beq_iff_eq.mp h)
      · exact Or.inr h
    · rintro (h | h)
      · exact Or.inl ⟨beq_iff_eq.mpr h, by simp [List.isPrefixOf]⟩
      · exact Or.inr h

theorem goContains_single (s : String) (c : Char) :
    goContains s ⟨[c]⟩ = true ↔ c ∈ s.data :=
  containsSub_single s.data c

theorem startsWithDash_iff (s : String) :
    ListItemMarker.data.isPrefixOf s.data = true ↔ s.data.head? = some '-' := by
  have h : ListItemMarker.data = ['-'] := rfl
  rw [h]
  cases s.data with
  | nil => simp [List.isPrefixOf]
  | cons x rest =>
    simp only [List.isPrefixOf, Bool.and_eq_true, List.head?_cons, Option.some_inj]
    constructor
    · rintro ⟨h1, _⟩; exact (beq_iff_eq.mp h1).symm
    · intro h1; exact ⟨beq_iff_eq.mpr h1.symm, by simp [List.isPrefixOf]⟩

theorem goContainsAny_mem (s chars : String) :
    goContainsAny s chars = true ↔ ∃ c ∈ s.data, c ∈ chars.data := by
  simp [goContainsAny, List.any_eq_true]

theorem goContains_colon (s : String) : goContains s Colon = true ↔ ':' ∈ s.data :=
  goContains_single s ':'

theorem goContains_quote (s : String) : goContains s DoubleQuote = true ↔ '"' ∈ s.data :=
  goContains_single s '"'

theorem goContains_backslash (s : String) : goContains s Backslash = true ↔ '\\' ∈ s.data :=
  goContains_single s '\\'

theorem goContainsAny_brackets (s : String) :
    goContainsAny s "[]\x7b\x7d" = true ↔
      '[' ∈ s.data ∨ ']' ∈ s.data ∨ '\x7b' ∈ s.data ∨ '\x7d' ∈ s.data := by
  rw [goContainsAny_mem]
  constructor
  · rintro ⟨c, hc, hmem⟩
    have hm : c ∈ ['[', ']', '\x7b', '\x7d'] := hmem
    simp only [List.mem_cons, List.not_mem_nil, or_false] at hm
    rcases hm with h | h | h | h <;> subst h <;> tauto
  · rintro (h | h | h | h) <;> exact ⟨_, h, by decide⟩

theorem goContainsAny_ctl (s : String) :
    goContainsAny s "\n\r\t" = true ↔
      '\n' ∈ s.data ∨ '\r' ∈ s.data ∨ '\t' ∈ s.data := by
  rw [goContainsAny_mem]
  constructor
  · rintro ⟨c, hc, hmem⟩
    have hm : c ∈ ['\n', '\r', '\t'] := hmem
    simp only [List.mem_cons, List.not_mem_nil, or_false] at hm
    rcases hm with h | h | h <;> subst h <;> tauto
  · rintro (h | h | h) <;> exact ⟨_, h, by decide⟩

/-- Chain normalization for the guard cascade of `isSafeUnquoted`. -/
theorem ite_chain_false {P : Prop} [Decidable P] {b : Bool} :
    (if P then false else b) = false ↔ P ∨ b = false := by
  split_ifs with h <;> simp [h]

/-- Claim C2: the scalar encoder renders a string unquoted exactly when
`isSafeUnquoted` holds, and `isSafeUnquoted s d` is `false` exactly when
one of the listed conditions holds (empty; whitespace-trimming changes
the string; reserved literal; numeric-looking; contains a colon, double
quote, backslash, bracket, brace, newline, carriage return or tab;
contains the active delimiter; starts with a dash) — and `true`
otherwise. -/
theorem isSafeUnquoted_spec (s d : String) :
    (isSafeUnquoted s d = true → encodeStringLiteral s d = s) ∧
    (isSafeUnquoted s d = false →
      encodeStringLiteral s d = DoubleQuote ++ escapeString s ++ DoubleQuote) ∧
    (isSafeUnquoted s d = false ↔
      (s = "" ∨ trimSpace s ≠ s ∨ s = "true" ∨ s = "false" ∨ s = "null" ∨
       isNumericLike s = true ∨
       ':' ∈ s.data ∨ '"' ∈ s.data ∨ '\\' ∈ s.data ∨
       '[' ∈ s.data ∨ ']' ∈ s.data ∨ '\x7b' ∈ s.data ∨ '\x7d' ∈ s.data ∨
       '\n' ∈ s.data ∨ '\r' ∈ s.data ∨ '\t' ∈ s.data ∨
       goContains s d = true ∨ s.data.head? = some '-')) := by
  refine ⟨fun h => by simp [encodeStringLiteral, h],
    fun h => by simp [encodeStringLiteral, h], ?_⟩
  have code_iff : isSafeUnquoted s d = false ↔
      (s = "" ∨ trimSpace s ≠ s ∨
       (s = TrueLiteral ∨ s = FalseLiteral ∨ s = NullLiteral) ∨
       isNumericLike s = true ∨ goContains s Colon = true ∨
       (goContains s DoubleQuote = true ∨ goContains s Backslash = true) ∨
       goContainsAny s "[]\x7b\x7d" = true ∨ goContainsAny s "\n\r\t" = true ∨
       goContains s d = true ∨ ListItemMarker.data.isPrefixOf s.data = true) := by
    simp only [isSafeUnquoted, ite_chain_false, Bool.or_eq_true, Bool.true_eq_false,
      or_false, ne_eq]
  rw [code_iff]
  rw [goContains_colon, goContains_quote, goContains_backslash,
    goContainsAny_brackets, goContainsAny_ctl, startsWithDash_iff]
  simp only [TrueLiteral, FalseLiteral, NullLiteral, or_assoc]

/-- Claim C5: the header grammar.  The produced text is the encoded key
(when a key is present), then a bracket group holding the optional `#`
marker, the element count and — exactly when the delimiter is not the
default comma — the delimiter itself, then the brace-wrapped field list
joined by the delimiter (exactly when fields are present, each field
emitted through the key encoder), then the colon; and the worked
example: `\x7b"tags":["a","b","c"]\x7d` under the tab delimiter encodes
to `tags[3\t]: a\tb\tc`. -/
theorem formatHeader_grammar (length : Nat) (key : String) (fields : List String)
    (d : String) (m : Bool) :
    formatHeader length { key := key, fields := fields, delimiter := d, lengthMarker := m } =
      (if key = "" then "" else encodeKey key) ++
      "[" ++ (if m then "#" else "") ++ toString length ++
      (if d = "," then "" else d) ++ "]" ++
      (if fields = [] then ""
       else "\x7b" ++ String.intercalate d (fields.map encodeKey) ++ "\x7d") ++ ":" ∧
    Encode (.obj [("tags", .arr [.str "a", .str "b", .str "c"])])
      { Indent := 2, Delimiter := "\t", LengthMarker := false } =
      some "tags[3\t]: a\tb\tc" := by
  constructor
  · simp only [formatHeader, OpenBracket, CloseBracket, OpenBrace, CloseBrace, Colon,
      DefaultDelimiter, ite_not, List.isEmpty_iff]
  · simp [Encode, encodeValue, encodeObject, encodePairs, encodeKeyValuePair,
      encodeArray, encodeInlinePrimitiveArray, formatInlineArray, formatHeader,
      isArrayOfPrimitives, joinEncodedValues,
      isPrimitive, goRepeat, sortPairs, List.insertionSort,
      List.orderedInsert, keyLE, strLe, charListLe, encodePrimitive, encodeKey,
      isValidUnquotedKey, encodeStringLiteral, isSafeUnquoted, pushLine, strRepeat,
      trimSpace, goIsSpace, isNumericLike, numericMain, digits1,
      fracExpTail, expTail, leadingZeroInt, goContains, containsSub, goContainsAny,
      Colon, NullLiteral, TrueLiteral, FalseLiteral, ListItemMarker, DoubleQuote,
      OpenBracket, CloseBracket, Backslash, DefaultDelimiter]
    decide

/-- Per-character form of the five escape passes. -/
def escChar (c : Char) : List Char :=
  if c = '\\' then ['\\', '\\']
  else if c = '"' then ['\\', '"']
  else if c = '\n' then ['\\', 'n']
  else if c = '\r' then ['\\', 'r']
  else if c = '\t' then ['\\', 't']
  else [c]

/-- Modelled from the spec: the decoder's unescape rule (the repository
is an encoder only, §1 non-goals).  A backslash followed by `n`, `r`,
`t`, `\` or `"` decodes to the escaped character; other characters pass
through. -/
def unescapeChars : List Char → List Char
  | [] => []
  | [c] => [c]
  | c :: e :: rest =>
    if c = '\\' then
      (if e = 'n' then '\n'
       else if e = 'r' then '\r'
       else if e = 't' then '\t'
       else e) :: unescapeChars rest
    else c :: unescapeChars (e :: rest)

/-- Modelled from the spec: string form of the unescape rule. -/
def unescapeString (s : String) : String :=
  ⟨unescapeChars s.data⟩

theorem escapeString_data (s : String) :
    (escapeString s).data = s.data.flatMap escChar := by
  show ((((s.data.flatMap fun x => if x = '\\' then ['\\', '\\'] else [x]).flatMap
    fun x => if x = '"' then ['\\', '"'] else [x]).flatMap
    fun x => if x = '\n' then ['\\', 'n'] else [x]).flatMap
    fun x => if x = '\r' then ['\\', 'r'] else [x]).flatMap
    (fun x => if x = '\t' then ['\\', 't'] else [x]) = s.data.flatMap escChar
  induction s.data with
  | nil => rfl
  | cons c rest ih =>
    simp only [List.flatMap_cons, List.flatMap_append, ih]
    congr 1
    by_cases h1 : c = '\\'
    · subst h1; rfl
    · by_cases h2 : c = '"'
      · subst h2; rfl
      · by_cases h3 : c = '\n'
        · subst h3; rfl
        · by_cases h4 : c = '\r'
          · subst h4; rfl
          · by_cases h5 : c = '\t'
            · subst h5; rfl
            · simp [escChar, h1, h2, h3, h4, h5]

theorem unescapeChars_cons_ne (c : Char) (l : List Char) (h : ¬ c = '\\') :
    unescapeChars (c :: l) = c :: unescapeChars l := by
  cases l with
  | nil => rfl
  | cons e es => simp [unescapeChars, h]

theorem unescape_escChar (l : List Char) :
    unescapeChars (l.flatMap escChar) = l := by
  induction l with
  | nil => rfl
  | cons c rest ih =>
    simp only [List.flatMap_cons]
    by_cases h1 : c = '\\'
    · subst h1; simp [escChar, unescapeChars, ih]
    · by_cases h2 : c = '"'
      · subst h2; simp [escChar, unescapeChars, ih]
      · by_cases h3 : c = '\n'
        · subst h3; simp [escChar, unescapeChars, ih]
        · by_cases h4 : c = '\r'
          · subst h4; simp [escChar, unescapeChars, ih]
          · by_cases h5 : c = '\t'
            · subst h5; simp [escChar, unescapeChars, ih]
            · rw [show escChar c = [c] by simp [escChar, h1, h2, h3, h4, h5],
                List.singleton_append, unescapeChars_cons_ne c _ h1, ih]

/-- Claim C8: every string rejected by `isSafeUnquoted` is emitted as a
double-quoted escaped literal, and the spec's unescape rule recovers the
original string from the escaped form exactly. -/
theorem quoted_escape_roundtrip (s d : String) (h : isSafeUnquoted s d = false) :
    encodeStringLiteral s d = DoubleQuote ++ escapeString s ++ DoubleQuote ∧
    unescapeString (escapeString s) = s := by
  refine ⟨by simp [encodeStringLiteral, h], ?_⟩
  have hd : (unescapeString (escapeString s)).data = s.data := by
    show unescapeChars (escapeString s).data = s.data
    rw [escapeString_data, unescape_escChar]
  cases s with
  | mk data =>
    cases hu : unescapeString (escapeString ⟨data⟩) with
    | mk data2 =>
      have := congrArg String.data hu
      simp at this
      rw [hu] at hd
      exact congrArg String.mk hd

/-- Witness for C8 at the concrete unsafe string `say "hi"` with the
default delimiter. -/
theorem quoted_escape_roundtrip_witness :
    isSafeUnquoted "say \"hi\"" "," = false ∧
    encodeStringLiteral "say \"hi\"" "," =
      DoubleQuote ++ escapeString "say \"hi\"" ++ DoubleQuote ∧
    unescapeString (escapeString "say \"hi\"") = "say \"hi\"" := by
  refine ⟨by decide, ?_⟩
  exact quoted_escape_roundtrip "say \"hi\"" "," (by decide)

/-- Witness for C2 at the concrete string `a,b` under the comma
delimiter: it contains the delimiter, so it is unsafe and gets quoted. -/
theorem isSafeUnquoted_spec_witness :
    isSafeUnquoted "a,b" "," = false ∧
    encodeStringLiteral "a,b" "," = DoubleQuote ++ escapeString "a,b" ++ DoubleQuote := by
  have h := isSafeUnquoted_spec "a,b" ","
  have hfalse : isSafeUnquoted "a,b" "," = false := by decide
  exact ⟨hfalse, h.2.1 hfalse⟩

/-- Claim C10: a zero-key object pushes no lines and `Encode` returns
the empty string (with a `nil` error, i.e. a `some` result), for every
option record whose indent is representable (non-negative). -/
theorem encode_empty_object (opts : EncodeOptions) (ind : String) (depth : Nat)
    (h : 0 ≤ opts.Indent) :
    encodeObject [] ind depth opts = [] ∧ Encode (.obj []) opts = some "" := by
  have hlines : ∀ ind2 d2, encodeObject [] ind2 d2 opts = [] := by
    intro ind2 d2
    rw [encodeObject]
    show encodePairs [] ind2 d2 opts = []
    rw [encodePairs]
  refine ⟨hlines ind depth, ?_⟩
  rw [Encode, encodeValue]
  have hrep : goRepeat " " opts.Indent = some (strRepeat " " opts.Indent.toNat) := by
    rw [goRepeat, if_neg (by omega)]
  simp only [isPrimitive, Bool.false_eq_true, if_false, hrep, hlines]
  rfl

/-- Witness for C10 with the default options. -/
theorem encode_empty_object_witness :
    encodeObject [] "  " 0 defaultOptions = [] ∧
    Encode (.obj []) defaultOptions = some "" :=
  encode_empty_object defaultOptions "  " 0 (by decide)

/-- Counterexample to claim C6 as stated: with the out-of-range indent
`-1` and a non-primitive input, `strings.Repeat(" ", -1)` inside
`NewLineWriter` panics (modelled as `none`), so `Encode` does not
complete normally for every option combination. -/
theorem encode_negative_indent_panics :
    Encode (.obj [("a", .num 1)])
      { Indent := -1, Delimiter := ",", LengthMarker := false } = none := by
  rw [Encode, encodeValue]
  rfl

/-- Claim C6 (amended): for every value and every option record whose
indent is non-negative — the delimiter being any string whatever,
including values outside the documented set — `Encode` completes and
returns a result (the Go error is always `nil`); an out-of-enum
delimiter is embedded literally in the header and the body, as the
conjoined concrete example with delimiter `xy` shows. -/
theorem encode_total (v : Value) (opts : EncodeOptions) (h : 0 ≤ opts.Indent) :
    (Encode v opts).isSome = true ∧
    Encode (.obj [("tags", .arr [.str "a", .str "b"])])
      { Indent := 2, Delimiter := "xy", LengthMarker := false } =
      some "tags[2xy]: axyb" := by
  constructor
  · rw [Encode, encodeValue]
    have hrep : goRepeat " " opts.Indent = some (strRepeat " " opts.Indent.toNat) := by
      rw [goRepeat, if_neg (by omega)]
    by_cases hp : isPrimitive v = true
    · simp [hp]
    · simp [hp, hrep]
  · simp [Encode, encodeValue, encodeObject, encodePairs, encodeKeyValuePair,
      encodeArray, encodeInlinePrimitiveArray, formatInlineArray, formatHeader,
      isArrayOfPrimitives, joinEncodedValues,
      isPrimitive, goRepeat, sortPairs, List.insertionSort,
      List.orderedInsert, keyLE, strLe, charListLe, encodePrimitive, encodeKey,
      isValidUnquotedKey, encodeStringLiteral, isSafeUnquoted, pushLine, strRepeat,
      trimSpace, goIsSpace, isNumericLike, numericMain, digits1,
      fracExpTail, expTail, leadingZeroInt, goContains, containsSub, goContainsAny,
      Colon, NullLiteral, TrueLiteral, FalseLiteral, ListItemMarker, DoubleQuote,
      OpenBracket, CloseBracket, Backslash, DefaultDelimiter]
    decide

/-- Witness for the amended C6 at a concrete value and option record. -/
theorem encode_total_witness :
    (Encode (.obj [("a", .num 1)]) defaultOptions).isSome = true :=
  (encode_total (.obj [("a", .num 1)]) defaultOptions (by decide)).1

/-- Per-element body lines of the list-of-items rendering: a scalar
becomes one bullet line, an all-primitive sub-array becomes one bullet
line with its inline rendering, an object is rendered as a bullet
object; a sub-array that is not all-primitive yields no lines (this is
what the source loop does — there is no structural recursion branch). -/
def itemLines (ind : String) (depth : Nat) (opts : EncodeOptions) : Value → List String
  | .arr a =>
    if isArrayOfPrimitives a then
      [pushLine ind (depth + 1)
        (ListItemBullet ++ formatInlineArray a opts.Delimiter "" opts.LengthMarker)]
    else []
  | .obj o => encodeObjectAsListItem o ind (depth + 1) opts
  | v => [pushLine ind (depth + 1) (ListItemBullet ++ encodePrimitive v opts.Delimiter)]

theorem encodeListItemsLoop_eq (items : List Value) (ind : String) (depth : Nat)
    (opts : EncodeOptions) :
    encodeListItemsLoop items ind depth opts = items.flatMap (itemLines ind depth opts) := by
  induction items with
  | nil => simp only [encodeListItemsLoop, List.flatMap_nil]
  | cons item rest ih =>
    cases item <;> simp [encodeListItemsLoop, List.flatMap_cons, ih, itemLines]

/-- Counterexample to claim C3 as stated: in the mixed-array list
rendering, a sub-array element that is not all-primitive (here the
array `[\x7b"a":1\x7d]`) is omitted from the body entirely — the output
has only one body line for a two-element array, while the claim
requires every element to produce output. -/
theorem mixed_array_omits_element :
    encodeArray "" [.num 1, .arr [.obj [("a", .num 1)]]] "  " 0 defaultOptions =
      ["[2]:", "  - 1"] ∧
    (["[2]:", "  - 1"] : List String).length <
      1 + ([Value.num 1, Value.arr [.obj [("a", .num 1)]]]).length := by
  constructor
  · simp [encodeArray, encodeMixedArrayAsListItems, encodeListItemsLoop,
      encodeObjectAsListItem, encodePairs, encodeKeyValuePair, encodeObject,
      encodeInlinePrimitiveArray, encodeArrayOfArraysAsListItems,
      encodeArrayOfObjectsAsTabular, writeTabularRows, detectTabularHeader,
      isTabularArray, sortStrings, allPrimitiveSubArrays, formatInlineArray,
      formatHeader, isArrayOfPrimitives, isArrayOfArrays, isArrayOfObjects,
      isArray, isObject, toObj, joinEncodedValues, isPrimitive, sortPairs,
      List.insertionSort, List.orderedInsert, keyLE, strLe, charListLe,
      encodePrimitive, encodeKey, isValidUnquotedKey, encodeStringLiteral,
      isSafeUnquoted, pushLine, strRepeat, formatNumber, trimSpace, goIsSpace,
      isNumericLike, numericMain, digits1, fracExpTail, expTail, leadingZeroInt,
      goContains, containsSub, goContainsAny, Colon, NullLiteral, TrueLiteral,
      FalseLiteral, ListItemMarker, ListItemBullet, DoubleQuote, OpenBracket,
      CloseBracket, OpenBrace, CloseBrace, Backslash, DefaultDelimiter]
    decide
  · decide

/-- Claim C3 (amended): for a non-empty array that is not all-primitive,
not all-(primitive sub-arrays) and not a tabular-eligible array of
objects, the encoder emits the header line and then, per element in
order: a scalar as a bullet plus its scalar encoding, an all-primitive
sub-array as a bullet plus its inline rendering, an object via the
bullet-object rendering — and a sub-array element that is not
all-primitive is omitted (it produces no lines). -/
theorem mixed_array_list_rendering (key : String) (items : List Value) (ind : String)
    (depth : Nat) (opts : EncodeOptions)
    (hne : items ≠ [])
    (hprim : isArrayOfPrimitives items = false)
    (harr : (isArrayOfArrays items && allPrimitiveSubArrays items) = false)
    (hobj : isArrayOfObjects items = true → detectTabularHeader (items.map toObj) = none) :
    encodeArray key items ind depth opts =
      pushLine ind depth (formatHeader items.length
        { key := key, fields := [], delimiter := opts.Delimiter,
          lengthMarker := opts.LengthMarker }) ::
      items.flatMap (itemLines ind depth opts) := by
  have hmix : encodeMixedArrayAsListItems key items ind depth opts =
      pushLine ind depth (formatHeader items.length
        { key := key, fields := [], delimiter := opts.Delimiter,
          lengthMarker := opts.LengthMarker }) ::
      items.flatMap (itemLines ind depth opts) := by
    simp only [encodeMixedArrayAsListItems, encodeListItemsLoop_eq]
  have h1 : ¬ (items.isEmpty = true) := by simp [hne]
  have h2 : ¬ (isArrayOfPrimitives items = true) := by simp [hprim]
  have h3 : ¬ ((isArrayOfArrays items && allPrimitiveSubArrays items) = true) := by
    simp [harr]
  rw [encodeArray]
  rw [if_neg h1, if_neg h2, if_neg h3]
  by_cases h4 : isArrayOfObjects items = true
  · rw [if_pos h4, hobj h4]
    exact hmix
  · rw [if_neg h4]
    exact hmix

/-- Witness for the amended C3 at the mixed array `[1, "text",
\x7b"a":1\x7d]` from the repository's tests. -/
theorem mixed_array_list_rendering_witness :
    encodeArray "items" [.num 1, .str "text", .obj [("a", .num 1)]] "  " 0 defaultOptions =
      pushLine "  " 0 (formatHeader 3
        { key := "items", fields := [], delimiter := ",", lengthMarker := false }) ::
      ([Value.num 1, Value.str "text", Value.obj [("a", .num 1)]]).flatMap
        (itemLines "  " 0 defaultOptions) := by
  have h := mixed_array_list_rendering "items" [.num 1, .str "text", .obj [("a", .num 1)]]
    "  " 0 defaultOptions (by simp) (by decide) (by decide)
    (by intro hx; exact absurd hx (by decide))
  simpa [defaultOptions] using h

theorem encodeObject_nil (ind : String) (depth : Nat) (opts : EncodeOptions) :
    encodeObject [] ind depth opts = [] := by
  rw [encodeObject]
  show encodePairs [] ind depth opts = []
  rw [encodePairs]

theorem encodeObjectAsListItem_nil (obj : List (String × Value)) (ind : String)
    (depth : Nat) (opts : EncodeOptions) (h : sortPairs obj = []) :
    encodeObjectAsListItem obj ind depth opts = [pushLine ind depth ListItemMarker] := by
  simp only [encodeObjectAsListItem]
  split
  · rfl
  all_goals (rename_i heq; rw [h] at heq; simp at heq)

theorem encodeObjectAsListItem_prim (obj : List (String × Value)) (ind : String)
    (depth : Nat) (opts : EncodeOptions) (fk : String) (fv : Value)
    (rest : List (String × Value)) (h : sortPairs obj = (fk, fv) :: rest)
    (hp : isPrimitive fv = true) :
    encodeObjectAsListItem obj ind depth opts =
      pushLine ind depth (ListItemBullet ++ encodeKey fk ++ Colon ++ " " ++
        encodePrimitive fv opts.Delimiter) ::
      encodePairs rest ind (depth + 1) opts := by
  simp only [encodeObjectAsListItem]
  split
  · rename_i heq; rw [h] at heq; simp at heq
  · rename_i heq
    rw [h] at heq
    simp only [List.cons.injEq, Prod.mk.injEq] at heq
    obtain ⟨⟨hk, hv⟩, hr⟩ := heq
    rw [hv] at hp
    simp [isPrimitive] at hp
  · rename_i heq
    rw [h] at heq
    simp only [List.cons.injEq, Prod.mk.injEq] at heq
    obtain ⟨⟨hk, hv⟩, hr⟩ := heq
    rw [hv] at hp
    simp [isPrimitive] at hp
  · rename_i heq
    rw [h] at heq
    simp only [List.cons.injEq, Prod.mk.injEq] at heq
    obtain ⟨⟨hk, hv⟩, hr⟩ := heq
    subst hk; subst hv; subst hr
    rfl

theorem encodeObjectAsListItem_arr (obj : List (String × Value)) (ind : String)
    (depth : Nat) (opts : EncodeOptions) (fk : String) (a : List Value)
    (rest : List (String × Value)) (h : sortPairs obj = (fk, .arr a) :: rest) :
    encodeObjectAsListItem obj ind depth opts =
      (if isArrayOfPrimitives a then
        [pushLine ind depth
          (ListItemBullet ++ formatInlineArray a opts.Delimiter fk opts.LengthMarker)]
      else if isArrayOfObjects a then
        match detectTabularHeader (a.map toObj) with
        | some header =>
          pushLine ind depth (ListItemBullet ++ formatHeader a.length
            { key := fk, fields := header, delimiter := opts.Delimiter,
              lengthMarker := opts.LengthMarker }) ::
          writeTabularRows (a.map toObj) header ind (depth + 1) opts
        | none =>
          pushLine ind depth (ListItemBullet ++ encodeKey fk ++
            OpenBracket ++ toString a.length ++ CloseBracket ++ Colon) ::
          objItemsLoop a ind (depth + 1) opts
      else
        pushLine ind depth (ListItemBullet ++ encodeKey fk ++
          OpenBracket ++ toString a.length ++ CloseBracket ++ Colon) ::
        complexItemsLoop a ind (depth + 1) opts) ++
      encodePairs rest ind (depth + 1) opts := by
  simp only [encodeObjectAsListItem]
  split
  · rename_i heq; rw [h] at heq; simp at heq
  · rename_i heq
    rw [h] at heq
    simp only [List.cons.injEq, Prod.mk.injEq, Value.arr.injEq] at heq
    obtain ⟨⟨hk, hv⟩, hr⟩ := heq
    subst hk; subst hv; subst hr
    rfl
  · rename_i heq
    rw [h] at heq
    simp only [List.cons.injEq, Prod.mk.injEq] at heq
    obtain ⟨⟨hk, hv⟩, hr⟩ := heq
    simp at hv
  · rename_i heq
    rw [h] at heq
    simp only [List.cons.injEq, Prod.mk.injEq] at heq
    obtain ⟨⟨hk, hv⟩, hr⟩ := heq
    rename_i hne1 hne2
    exact absurd hv.symm (hne1 a)

theorem encodeObjectAsListItem_obj (obj : List (String × Value)) (ind : String)
    (depth : Nat) (opts : EncodeOptions) (fk : String) (no : List (String × Value))
    (rest : List (String × Value)) (h : sortPairs obj = (fk, .obj no) :: rest) :
    encodeObjectAsListItem obj ind depth opts =
      (if no.isEmpty then
        [pushLine ind depth (ListItemBullet ++ encodeKey fk ++ Colon)]
      else
        pushLine ind depth (ListItemBullet ++ encodeKey fk ++ Colon) ::
        encodeObject no ind (depth + 2) opts) ++
      encodePairs rest ind (depth + 1) opts := by
  simp only [encodeObjectAsListItem]
  split
  · rename_i heq; rw [h] at heq; simp at heq
  · rename_i heq
    rw [h] at heq
    simp only [List.cons.injEq, Prod.mk.injEq] at heq
    obtain ⟨⟨hk, hv⟩, hr⟩ := heq
    simp at hv
  · rename_i heq
    rw [h] at heq
    simp only [List.cons.injEq, Prod.mk.injEq, Value.obj.injEq] at heq
    obtain ⟨⟨hk, hv⟩, hr⟩ := heq
    subst hk; subst hv; subst hr
    rfl
  · rename_i heq
    rw [h] at heq
    simp only [List.cons.injEq, Prod.mk.injEq] at heq
    obtain ⟨⟨hk, hv⟩, hr⟩ := heq
    rename_i hne1 hne2
    exact absurd hv.symm (hne2 no)

/-- Claim C9: an object rendered as a list item.  With no keys, a single
bullet-marker line with no content; otherwise the lexicographically
first sorted key is fused with the bullet on one line ("- key: scalar"
for a scalar value, the inline "- key[...]: ..." form for a primitive
array value, "- key:" for an object value whose body is emitted two
depth levels deeper than the bullet line), and every remaining sorted
key is rendered as an ordinary key/value pair exactly one depth level
deeper than the bullet line. -/
theorem bullet_object_rendering (obj : List (String × Value)) (ind : String) (depth : Nat)
    (opts : EncodeOptions) :
    (sortPairs obj = [] →
      encodeObjectAsListItem obj ind depth opts = [pushLine ind depth ListItemMarker]) ∧
    (∀ fk fv rest, sortPairs obj = (fk, fv) :: rest →
      (isPrimitive fv = true →
        encodeObjectAsListItem obj ind depth opts =
          pushLine ind depth (ListItemBullet ++ encodeKey fk ++ Colon ++ " " ++
            encodePrimitive fv opts.Delimiter) ::
          encodePairs rest ind (depth + 1) opts) ∧
      (∀ a, fv = .arr a → isArrayOfPrimitives a = true →
        encodeObjectAsListItem obj ind depth opts =
          pushLine ind depth (ListItemBullet ++
            formatInlineArray a opts.Delimiter fk opts.LengthMarker) ::
          encodePairs rest ind (depth + 1) opts) ∧
      (∀ no, fv = .obj no →
        encodeObjectAsListItem obj ind depth opts =
          pushLine ind depth (ListItemBullet ++ encodeKey fk ++ Colon) ::
          (encodeObject no ind (depth + 2) opts ++
            encodePairs rest ind (depth + 1) opts))) := by
  refine ⟨encodeObjectAsListItem_nil obj ind depth opts, ?_⟩
  intro fk fv rest h5
  refine ⟨encodeObjectAsListItem_prim obj ind depth opts fk fv rest h5, ?_, ?_⟩
  · rintro a rfl hprim
    rw [encodeObjectAsListItem_arr obj ind depth opts fk a rest h5]
    rw [if_pos hprim]
    rfl
  · rintro no rfl
    rw [encodeObjectAsListItem_obj obj ind depth opts fk no rest h5]
    by_cases hempty : no.isEmpty = true
    · have hnil : no = [] := by simpa using hempty
      subst hnil
      rw [if_pos hempty, encodeObject_nil]
      rfl
    · rw [if_neg hempty]
      rfl

/-- Witness for C9 at the two-key object with keys `b` and `a`: the
first sorted key `a` is fused with the bullet, the remaining key `b` is
emitted one depth level deeper. -/
theorem bullet_object_rendering_witness :
    encodeObjectAsListItem [("b", .num 2), ("a", .num 1)] "  " 0 defaultOptions =
      pushLine "  " 0 (ListItemBullet ++ encodeKey "a" ++ Colon ++ " " ++
        encodePrimitive (.num 1) defaultOptions.Delimiter) ::
      encodePairs [("b", .num 2)] "  " 1 defaultOptions := by
  have h := (bullet_object_rendering [("b", .num 2), ("a", .num 1)] "  " 0 defaultOptions).2
    "a" (.num 1) [("b", .num 2)] (by rfl)
  exact h.1 (by rfl)

/-! Support lemmas about `sortStrings` and association-list lookup,
used for the tabular-detection characterization. -/

theorem sortStrings_perm (l : List String) : sortStrings l |>.Perm l :=
  List.perm_insertionSort strLe l

theorem sortStrings_sorted (l : List String) : (sortStrings l).Sorted strLe :=
  List.sorted_insertionSort strLe l

theorem sortStrings_eq_of_perm {l1 l2 : List String} (h : l1.Perm l2) :
    sortStrings l1 = sortStrings l2 :=
  List.eq_of_perm_of_sorted
    ((sortStrings_perm l1).trans (h.trans (sortStrings_perm l2).symm))
    (sortStrings_sorted l1) (sortStrings_sorted l2)

theorem sortStrings_idem (l : List String) : sortStrings (sortStrings l) = sortStrings l :=
  List.Sorted.insertionSort_eq (sortStrings_sorted l)

theorem mem_sortStrings {l : List String} {x : String} : x ∈ sortStrings l ↔ x ∈ l :=
  (sortStrings_perm l).mem_iff

theorem sortStrings_nodup {l : List String} (h : l.Nodup) : (sortStrings l).Nodup :=
  (sortStrings_perm l).nodup_iff.mpr h

theorem lookup_mem {o : List (String × Value)} {k : String} {v : Value}
    (h : o.lookup k = some v) : (k, v) ∈ o := by
  induction o with
  | nil => simp [List.lookup] at h
  | cons p rest ih =>
    cases p with
    | mk a b =>
      rw [List.lookup_cons] at h
      by_cases hk : (k == a) = true
      · rw [hk] at h
        simp only [Option.some_inj] at h
        subst h
        have hka : k = a := beq_iff_eq.mp hk
        subst hka
        exact List.mem_cons_self _ _
      · simp only [Bool.not_eq_true] at hk
        rw [hk] at h
        exact List.mem_cons_of_mem _ (ih h)

theorem lookup_eq_some_of_mem {o : List (String × Value)} {k : String} {v : Value}
    (hnd : (o.map Prod.fst).Nodup) (hmem : (k, v) ∈ o) : o.lookup k = some v := by
  induction o with
  | nil => simp at hmem
  | cons p rest ih =>
    cases p with
    | mk a b =>
      simp only [List.map_cons, List.nodup_cons] at hnd
      rcases List.mem_cons.mp hmem with h | h
      · rw [Prod.mk.injEq] at h
        obtain ⟨rfl, rfl⟩ := h
        rw [List.lookup_cons]
        simp
      · have hka : ¬ k = a := by
          intro hkk
          subst hkk
          exact hnd.1 (List.mem_map.mpr ⟨(k, v), h, rfl⟩)
        rw [List.lookup_cons]
        have : (k == a) = false := beq_eq_false_iff_ne.mpr hka
        rw [this]
        exact ih hnd.2 h

theorem lookup_isSome_of_mem_keys {o : List (String × Value)} {k : String}
    (hk : k ∈ o.map Prod.fst) : ∃ v, o.lookup k = some v := by
  induction o with
  | nil => simp at hk
  | cons p rest ih =>
    cases p with
    | mk a b =>
      simp only [List.map_cons, List.mem_cons] at hk
      by_cases hka : (k == a) = true
      · exact ⟨b, by rw [List.lookup_cons, hka]⟩
      · simp only [Bool.not_eq_true] at hka
        rcases hk with h | h
        · exact absurd (beq_iff_eq.mpr h) (by rw [hka]; simp)
        · obtain ⟨v, hv⟩ := ih h
          exact ⟨v, by rw [List.lookup_cons, hka, hv]⟩

/-- Eligibility for the tabular strategy in the spec's words: every
object has exactly the key set of the first object (same cardinality,
same names — compared here as equal sorted key lists) and every field
value is a scalar. -/
def specTabularEligible (objects : List (List (String × Value))) : Bool :=
  match objects with
  | [] => false
  | o0 :: _ =>
    objects.all (fun o =>
      (sortStrings (o.map Prod.fst) == sortStrings (o0.map Prod.fst)) &&
      o.all (fun p => isPrimitive p.2))

theorem obj_matches_header_iff (o o0 : List (String × Value))
    (hnd : (o.map Prod.fst).Nodup) (hnd0 : (o0.map Prod.fst).Nodup) :
    (o.length = (sortStrings (o0.map Prod.fst)).length ∧
      ∀ k ∈ sortStrings (o0.map Prod.fst),
        ∃ v, o.lookup k = some v ∧ isPrimitive v = true) ↔
    (sortStrings (o.map Prod.fst) = sortStrings (o0.map Prod.fst) ∧
      ∀ p ∈ o, isPrimitive p.2 = true) := by
  set K := sortStrings (o0.map Prod.fst) with hK
  constructor
  · rintro ⟨hlen, hk⟩
    have hsub : K ⊆ o.map Prod.fst := by
      intro k hkK
      obtain ⟨v, hv, _⟩ := hk k hkK
      exact List.mem_map.mpr ⟨(k, v), lookup_mem hv, rfl⟩
    have hKnd : K.Nodup := sortStrings_nodup hnd0
    have hsubperm := hKnd.subperm hsub
    have hperm : K.Perm (o.map Prod.fst) := by
      apply hsubperm.perm_of_length_le
      rw [List.length_map]
      omega
    have hkeys : sortStrings (o.map Prod.fst) = K := by
      have h1 : sortStrings (o.map Prod.fst) = sortStrings K :=
        sortStrings_eq_of_perm hperm.symm
      rw [h1, hK, sortStrings_idem]
    refine ⟨hkeys, ?_⟩
    intro p hp
    have hpk : p.1 ∈ K := by
      rw [← hkeys, mem_sortStrings]
      exact List.mem_map.mpr ⟨p, hp, rfl⟩
    obtain ⟨v, hv, hvp⟩ := hk p.1 hpk
    have : o.lookup p.1 = some p.2 := lookup_eq_some_of_mem hnd (by
      cases p
      exact hp)
    rw [this] at hv
    simp only [Option.some_inj] at hv
    rw [hv]
    exact hvp
  · rintro ⟨hkeys, hall⟩
    have hperm : K.Perm (o.map Prod.fst) := by
      rw [← hkeys]
      exact sortStrings_perm _
    constructor
    · rw [← List.length_map o Prod.fst]
      exact hperm.length_eq.symm
    · intro k hkK
      have hkmem : k ∈ o.map Prod.fst := hperm.mem_iff.mp hkK
      obtain ⟨p, hp, hpk⟩ := List.mem_map.mp hkmem
      obtain ⟨k2, v⟩ := p
      subst hpk
      refine ⟨v, lookup_eq_some_of_mem hnd hp, hall _ hp⟩

theorem lookup_match_iff (o : List (String × Value)) (k : String) :
    (match o.lookup k with
     | some v => isPrimitive v
     | none => false) = true ↔
    ∃ v, o.lookup k = some v ∧ isPrimitive v = true := by
  cases h : o.lookup k <;> simp [h]

theorem isTabularArray_iff (objs : List (List (String × Value)))
    (o0 : List (String × Value))
    (hnodup : ∀ o ∈ objs, (o.map Prod.fst).Nodup)
    (hnd0 : (o0.map Prod.fst).Nodup) :
    isTabularArray objs (sortStrings (o0.map Prod.fst)) = true ↔
      ∀ o ∈ objs, sortStrings (o.map Prod.fst) = sortStrings (o0.map Prod.fst) ∧
        ∀ p ∈ o, isPrimitive p.2 = true := by
  simp only [isTabularArray, List.all_eq_true, Bool.and_eq_true, decide_eq_true_eq,
    lookup_match_iff]
  constructor
  · intro h o ho
    exact (obj_matches_header_iff o o0 (hnodup o ho) hnd0).mp
      ⟨(h o ho).1, (h o ho).2⟩
  · intro h o ho
    have hm := (obj_matches_header_iff o o0 (hnodup o ho) hnd0).mpr (h o ho)
    exact ⟨hm.1, hm.2⟩

theorem specTabularEligible_iff (o0 : List (String × Value))
    (rest : List (List (String × Value))) :
    specTabularEligible (o0 :: rest) = true ↔
      ∀ o ∈ o0 :: rest, sortStrings (o.map Prod.fst) = sortStrings (o0.map Prod.fst) ∧
        ∀ p ∈ o, isPrimitive p.2 = true := by
  simp [specTabularEligible, List.all_eq_true]

theorem detectTabularHeader_spec (o0 : List (String × Value))
    (rest : List (List (String × Value)))
    (hnodup : ∀ o ∈ o0 :: rest, (o.map Prod.fst).Nodup) (h0 : o0 ≠ []) :
    detectTabularHeader (o0 :: rest) =
      if specTabularEligible (o0 :: rest) = true then some (sortStrings (o0.map Prod.fst))
      else none := by
  have hnd0 := hnodup o0 (List.mem_cons_self _ _)
  have hne : ¬ (o0.isEmpty = true) := by simp [h0]
  simp only [detectTabularHeader]
  rw [if_neg hne]
  by_cases hspec : specTabularEligible (o0 :: rest) = true
  · rw [if_pos hspec,
      if_pos ((isTabularArray_iff (o0 :: rest) o0 hnodup hnd0).mpr
        ((specTabularEligible_iff o0 rest).mp hspec))]
  · rw [if_neg hspec, if_neg]
    intro habs
    exact hspec ((specTabularEligible_iff o0 rest).mpr
      ((isTabularArray_iff (o0 :: rest) o0 hnodup hnd0).mp habs))

/-- Counterexample to claim C1 as stated: for the array of two empty
objects every object trivially has exactly the (empty) key set of the
first object and every field value is vacuously a scalar, so the claim
requires the tabular rendering with one delimiter-joined row per object
— but `detectTabularHeader` rejects an empty first object and the
encoder falls through to the bullet list rendering instead. -/
theorem tabular_empty_objects_counterexample :
    specTabularEligible [[], []] = true ∧
    detectTabularHeader [[], []] = none ∧
    encodeArray "" [.obj [], .obj []] "  " 0 defaultOptions = ["[2]:", "  -", "  -"] ∧
    ("  -" : String) ≠ pushLine "  " 1 (joinEncodedValues [] defaultOptions.Delimiter) := by
  refine ⟨by decide, by rfl, ?_, by decide⟩
  simp [encodeArray, encodeMixedArrayAsListItems, encodeListItemsLoop,
    encodeObjectAsListItem, encodePairs, encodeKeyValuePair, encodeObject,
    detectTabularHeader, isTabularArray, sortStrings, allPrimitiveSubArrays,
    isArrayOfPrimitives, isArrayOfArrays, isArrayOfObjects,
    isArray, isObject, toObj, isPrimitive, sortPairs,
    List.insertionSort, List.orderedInsert, keyLE, strLe, charListLe,
    formatHeader, pushLine, strRepeat, encodeKey, isValidUnquotedKey,
    Colon, ListItemMarker, ListItemBullet, OpenBracket, CloseBracket,
    OpenBrace, CloseBrace, DoubleQuote, Backslash, DefaultDelimiter, defaultOptions]
  decide

/-- Claim C1 (amended): for a non-empty array of objects, each with
pairwise-distinct keys and the first object non-empty, if every object
has exactly the sorted key set of the first object with all-scalar
values (the spec's eligibility) then the encoder emits one header line
carrying exactly those sorted keys as the field list, followed by
exactly one row per object holding the scalar encodings of that
object's field values joined by the delimiter in the header's field
order; if eligibility fails, the array falls through to the list
rendering.  (The amendment: the source also requires the first object
to have at least one key — an array of all-empty objects is rendered as
a list, not as a table.) -/
theorem tabular_encoding (key ind : String) (depth : Nat) (opts : EncodeOptions)
    (o0 : List (String × Value)) (rest : List (List (String × Value)))
    (hnodup : ∀ o ∈ o0 :: rest, (o.map Prod.fst).Nodup)
    (h0 : o0 ≠ []) :
    (specTabularEligible (o0 :: rest) = true →
      encodeArray key ((o0 :: rest).map Value.obj) ind depth opts =
        pushLine ind depth (formatHeader (o0 :: rest).length
          { key := key, fields := sortStrings (o0.map Prod.fst),
            delimiter := opts.Delimiter, lengthMarker := opts.LengthMarker }) ::
        (o0 :: rest).map (fun o =>
          pushLine ind (depth + 1) (joinEncodedValues
            ((sortStrings (o0.map Prod.fst)).map (fun k => (o.lookup k).getD .null))
            opts.Delimiter)) ∧
      (sortStrings (o0.map Prod.fst)).length = o0.length) ∧
    (specTabularEligible (o0 :: rest) = false →
      encodeArray key ((o0 :: rest).map Value.obj) ind depth opts =
        encodeMixedArrayAsListItems key ((o0 :: rest).map Value.obj) ind depth opts) := by
  have hne : ¬ (((o0 :: rest).map Value.obj).isEmpty = true) := by simp
  have hprim : ¬ (isArrayOfPrimitives ((o0 :: rest).map Value.obj) = true) := by
    simp [isArrayOfPrimitives, isPrimitive]
  have harr : ¬ ((isArrayOfArrays ((o0 :: rest).map Value.obj) &&
      allPrimitiveSubArrays ((o0 :: rest).map Value.obj)) = true) := by
    simp [isArrayOfArrays, isArray]
  have hobjs : isArrayOfObjects ((o0 :: rest).map Value.obj) = true := by
    simp [isArrayOfObjects, List.all_eq_true, isObject]
  have hto : ((o0 :: rest).map Value.obj).map toObj = o0 :: rest := by
    rw [List.map_map]
    have : toObj ∘ Value.obj = id := by
      funext o
      rfl
    rw [this, List.map_id]
  have hunfold : encodeArray key ((o0 :: rest).map Value.obj) ind depth opts =
      match detectTabularHeader (o0 :: rest) with
      | some header =>
        encodeArrayOfObjectsAsTabular key (o0 :: rest) header ind depth opts
      | none =>
        encodeMixedArrayAsListItems key ((o0 :: rest).map Value.obj) ind depth opts := by
    rw [encodeArray]
    rw [if_neg hne, if_neg hprim, if_neg harr, if_pos hobjs, hto]
  constructor
  · intro hspec
    refine ⟨?_, (sortStrings_perm _).length_eq.trans (List.length_map _ _)⟩
    rw [hunfold, detectTabularHeader_spec o0 rest hnodup h0, if_pos hspec]
    simp only [encodeArrayOfObjectsAsTabular, writeTabularRows, List.length_map]
  · intro hspec
    rw [hunfold, detectTabularHeader_spec o0 rest hnodup h0, if_neg (by simp [hspec])]

/-- Witness for the amended C1 at the repository's `users` example. -/
theorem tabular_encoding_witness :
    encodeArray "users"
      [.obj [("id", .num 1), ("name", .str "Alice"), ("role", .str "admin")],
       .obj [("id", .num 2), ("name", .str "Bob"), ("role", .str "user")]] "  " 0
      defaultOptions =
      pushLine "  " 0 (formatHeader 2
        { key := "users", fields := sortStrings ["id", "name", "role"],
          delimiter := defaultOptions.Delimiter,
          lengthMarker := defaultOptions.LengthMarker }) ::
      ([[("id", Value.num 1), ("name", Value.str "Alice"), ("role", Value.str "admin")],
        [("id", Value.num 2), ("name", Value.str "Bob"), ("role", Value.str "user")]]).map
        (fun o =>
          pushLine "  " 1 (joinEncodedValues
            ((sortStrings ["id", "name", "role"]).map (fun k => (o.lookup k).getD .null))
            defaultOptions.Delimiter)) := by
  have h := (tabular_encoding "users" "  " 0 defaultOptions
    [("id", .num 1), ("name", .str "Alice"), ("role", .str "admin")]
    [[("id", .num 2), ("name", .str "Bob"), ("role", .str "user")]]
    (by decide) (by simp)).1 (by decide)
  exact h.1

/-! Canonicalization and key-order independence (claim C4).  Two value
trees that differ only in the order in which object pairs are listed —
the order a Go map iteration happens to produce — have the same
canonical form, obtained by recursively sorting every object's pair
list.  The claim is that the encoder's output only depends on this
canonical form, for well-formed values (object keys pairwise distinct,
as Go maps guarantee). -/

mutual

/-- Canonical form of a value: every object pair list recursively
sorted by key. -/
def canon : Value → Value
  | .arr l => .arr (canonList l)
  | .obj l => .obj (sortPairs (canonPairsVals l))
  | v => v
termination_by v => sizeOf v
decreasing_by all_goals first | (simp; done) | (simp; omega) | omega

/-- Canonical forms of the elements of an array. -/
def canonList : List Value → List Value
  | [] => []
  | v :: r => canon v :: canonList r
termination_by l => sizeOf l
decreasing_by all_goals first | (simp; done) | (simp; omega) | omega

/-- Canonical forms of the values of an object's pairs (keys kept). -/
def canonPairsVals : List (String × Value) → List (String × Value)
  | [] => []
  | (k, x) :: r => (k, canon x) :: canonPairsVals r
termination_by l => sizeOf l
decreasing_by all_goals first | (simp; done) | (simp; omega) | omega

end

/-- Pairwise-distinct keys, as a boolean. -/
def nodupKeysB : List (String × Value) → Bool
  | [] => true
  | p :: r => !(r.any (fun q => q.1 == p.1)) && nodupKeysB r

mutual

/-- Well-formedness: every object in the tree has pairwise-distinct
keys (guaranteed for values produced from Go maps). -/
def WFb : Value → Bool
  | .arr l => WFbList l
  | .obj l => nodupKeysB l && WFbPairs l
  | _ => true
termination_by v => sizeOf v
decreasing_by all_goals first | (simp; done) | (simp; omega) | omega

/-- Well-formedness of every element of an array. -/
def WFbList : List Value → Bool
  | [] => true
  | v :: r => WFb v && WFbList r
termination_by l => sizeOf l
decreasing_by all_goals first | (simp; done) | (simp; omega) | omega

/-- Well-formedness of every value of an object's pairs. -/
def WFbPairs : List (String × Value) → Bool
  | [] => true
  | (_, x) :: r => WFb x && WFbPairs r
termination_by l => sizeOf l
decreasing_by all_goals first | (simp; done) | (simp; omega) | omega

end

theorem canonList_eq (l : List Value) : canonList l = l.map canon := by
  induction l with
  | nil => rw [canonList]; rfl
  | cons v r ih => rw [canonList, ih]; rfl

theorem canonPairsVals_eq (l : List (String × Value)) :
    canonPairsVals l = l.map (fun p => (p.1, canon p.2)) := by
  induction l with
  | nil => rw [canonPairsVals]; rfl
  | cons p r ih =>
    cases p with
    | mk k x => rw [canonPairsVals, ih]; rfl

theorem WFbList_iff (l : List Value) :
    WFbList l = true ↔ ∀ v ∈ l, WFb v = true := by
  induction l with
  | nil => simp [WFbList]
  | cons v r ih => rw [WFbList]; simp [ih]

theorem WFbPairs_iff (l : List (String × Value)) :
    WFbPairs l = true ↔ ∀ p ∈ l, WFb p.2 = true := by
  induction l with
  | nil => simp [WFbPairs]
  | cons p r ih =>
    cases p with
    | mk k x => rw [WFbPairs]; simp [ih]

theorem nodupKeysB_iff (l : List (String × Value)) :
    nodupKeysB l = true ↔ (l.map Prod.fst).Nodup := by
  induction l with
  | nil => simp [nodupKeysB]
  | cons p r ih =>
    rw [nodupKeysB]
    simp only [Bool.and_eq_true, Bool.not_eq_true', List.any_eq_false, List.map_cons,
      List.nodup_cons, ih]
    constructor
    · rintro ⟨h1, h2⟩
      refine ⟨?_, h2⟩
      intro hmem
      obtain ⟨q, hq, hq1⟩ := List.mem_map.mp hmem
      exact h1 q hq (beq_iff_eq.mpr hq1)
    · rintro ⟨h1, h2⟩
      refine ⟨?_, h2⟩
      intro q hq
      by_cases hqe : q.1 = p.1
      · exact absurd (List.mem_map.mpr ⟨q, hq, hqe⟩) h1
      · intro hb
        exact hqe (beq_iff_eq.mp hb)

theorem isPrimitive_canon (v : Value) : isPrimitive (canon v) = isPrimitive v := by
  cases v <;> simp [canon, isPrimitive]

theorem isArray_canon (v : Value) : isArray (canon v) = isArray v := by
  cases v <;> simp [canon, isArray]

theorem isObject_canon (v : Value) : isObject (canon v) = isObject v := by
  cases v <;> simp [canon, isObject]

theorem canon_prim (v : Value) (h : isPrimitive v = true) : canon v = v := by
  cases v <;> simp [canon] <;> simp [isPrimitive] at h

theorem encodePrimitive_canon (v : Value) (d : String) :
    encodePrimitive (canon v) d = encodePrimitive v d := by
  cases v <;> simp [canon, encodePrimitive]

theorem sortPairs_perm (l : List (String × Value)) : (sortPairs l).Perm l :=
  List.perm_insertionSort keyLE l

theorem sortPairs_sorted (l : List (String × Value)) : (sortPairs l).Sorted keyLE :=
  List.sorted_insertionSort keyLE l

theorem sortPairs_idem (l : List (String × Value)) :
    sortPairs (sortPairs l) = sortPairs l :=
  List.Sorted.insertionSort_eq (sortPairs_sorted l)

theorem sortPairs_map_canonPair (l : List (String × Value)) :
    sortPairs (l.map (fun p => (p.1, canon p.2))) =
      (sortPairs l).map (fun p => (p.1, canon p.2)) :=
  (List.map_insertionSort keyLE keyLE (fun p => (p.1, canon p.2)) l
    (fun _ _ _ _ => Iff.rfl)).symm

theorem map_fst_canonPairsVals (l : List (String × Value)) :
    (canonPairsVals l).map Prod.fst = l.map Prod.fst := by
  rw [canonPairsVals_eq, List.map_map]
  rfl

theorem lookup_map_canonPair (l : List (String × Value)) (k : String) :
    (l.map (fun p => (p.1, canon p.2))).lookup k = (l.lookup k).map canon := by
  induction l with
  | nil => simp [List.lookup]
  | cons p r ih =>
    cases p with
    | mk a b =>
      simp only [List.map_cons]
      rw [List.lookup_cons, List.lookup_cons]
      by_cases hk : (k == a) = true
      · rw [hk]
        rfl
      · simp only [Bool.not_eq_true] at hk
        rw [hk, ih]

theorem lookup_eq_of_perm {l1 l2 : List (String × Value)} (h : l1.Perm l2)
    (hnd : (l1.map Prod.fst).Nodup) (k : String) :
    l1.lookup k = l2.lookup k := by
  induction h with
  | nil => rfl
  | cons p hperm ih =>
    cases p with
    | mk a b =>
      rw [List.lookup_cons, List.lookup_cons]
      by_cases hk : (k == a) = true
      · rw [hk]
      · simp only [Bool.not_eq_true] at hk
        rw [hk]
        simp only [List.map_cons, List.nodup_cons] at hnd
        exact ih hnd.2
  | swap p q l =>
    obtain ⟨a, b⟩ := p
    obtain ⟨c, d⟩ := q
    simp only [List.map_cons, List.nodup_cons, List.mem_cons] at hnd
    rw [List.lookup_cons, List.lookup_cons, List.lookup_cons, List.lookup_cons]
    rcases Bool.eq_false_or_eq_true (k == a) with hk1 | hk1 <;>
      rcases Bool.eq_false_or_eq_true (k == c) with hk2 | hk2 <;>
        simp only [hk1, hk2]
    all_goals try rfl
    all_goals
      (exfalso;
       have h1 : k = a := beq_iff_eq.mp hk1;
       have h2 : k = c := beq_iff_eq.mp hk2;
       have hac : a = c := h1.symm.trans h2;
       first
       | exact hnd.1 (Or.inl hac)
       | exact hnd.1 (Or.inl hac.symm))
  | trans h1 h2 ih1 ih2 =>
    rw [ih1 hnd, ih2 ((h1.map Prod.fst).nodup_iff.mp hnd)]

theorem lookup_sortPairs (l : List (String × Value)) (hnd : (l.map Prod.fst).Nodup)
    (k : String) : (sortPairs l).lookup k = l.lookup k :=
  lookup_eq_of_perm (sortPairs_perm l) (((sortPairs_perm l).map Prod.fst).nodup_iff.mpr hnd) k

theorem all_congr_mem {α : Type} (l : List α) (p q : α → Bool)
    (h : ∀ x ∈ l, p x = q x) : l.all p = l.all q := by
  induction l with
  | nil => rfl
  | cons x r ih =>
    simp only [List.all_cons]
    rw [h x (List.mem_cons_self x r), ih (fun y hy => h y (List.mem_cons_of_mem x hy))]

/-- Canonical form of one object's pair list. -/
def canonObj (o : List (String × Value)) : List (String × Value) :=
  sortPairs (canonPairsVals o)

theorem canon_obj_eq (o : List (String × Value)) :
    canon (.obj o) = .obj (canonObj o) := by
  rw [canon]
  rfl

theorem map_fst_canonObj_perm (o : List (String × Value)) :
    ((canonObj o).map Prod.fst).Perm (o.map Prod.fst) := by
  rw [canonObj]
  have h1 := (sortPairs_perm (canonPairsVals o)).map Prod.fst
  rw [map_fst_canonPairsVals] at h1
  exact h1

theorem length_canonObj (o : List (String × Value)) :
    (canonObj o).length = o.length := by
  have := (map_fst_canonObj_perm o).length_eq
  simpa using this

theorem isEmpty_canonObj (o : List (String × Value)) :
    (canonObj o).isEmpty = o.isEmpty := by
  have h := length_canonObj o
  cases o with
  | nil =>
    cases he : canonObj [] with
    | nil => rfl
    | cons q s => rw [he] at h; simp at h
  | cons p r =>
    cases he : canonObj (p :: r) with
    | nil => rw [he] at h; simp at h
    | cons q s => rfl

theorem nodup_keys_canonObj {o : List (String × Value)}
    (hnd : (o.map Prod.fst).Nodup) : ((canonObj o).map Prod.fst).Nodup :=
  (map_fst_canonObj_perm o).nodup_iff.mpr hnd

theorem lookup_canonObj (o : List (String × Value)) (hnd : (o.map Prod.fst).Nodup)
    (k : String) : (canonObj o).lookup k = (o.lookup k).map canon := by
  rw [canonObj]
  rw [lookup_sortPairs _ (by rw [map_fst_canonPairsVals]; exact hnd)]
  rw [canonPairsVals_eq, lookup_map_canonPair]

theorem sortStrings_keys_canonObj (o : List (String × Value)) :
    sortStrings ((canonObj o).map Prod.fst) = sortStrings (o.map Prod.fst) :=
  sortStrings_eq_of_perm (map_fst_canonObj_perm o)

theorem tabular_check_canonObj (o : List (String × Value)) (K : List String)
    (hnd : (o.map Prod.fst).Nodup) :
    (decide ((canonObj o).length = K.length) &&
      K.all (fun key =>
        match (canonObj o).lookup key with
        | some v => isPrimitive v
        | none => false)) =
    (decide (o.length = K.length) &&
      K.all (fun key =>
        match o.lookup key with
        | some v => isPrimitive v
        | none => false)) := by
  rw [length_canonObj]
  congr 1
  apply all_congr_mem
  intro k hk
  rw [lookup_canonObj o hnd k]
  cases o.lookup k <;> simp [isPrimitive_canon]

theorem isTabularArray_canon (objs : List (List (String × Value))) (K : List String)
    (hnd : ∀ o ∈ objs, (o.map Prod.fst).Nodup) :
    isTabularArray (objs.map canonObj) K = isTabularArray objs K := by
  simp only [isTabularArray, List.all_map]
  apply all_congr_mem
  intro o ho
  exact tabular_check_canonObj o K (hnd o ho)

theorem detectTabularHeader_canon (objs : List (List (String × Value)))
    (hnd : ∀ o ∈ objs, (o.map Prod.fst).Nodup) :
    detectTabularHeader (objs.map canonObj) = detectTabularHeader objs := by
  cases objs with
  | nil => rfl
  | cons o0 rest =>
    simp only [List.map_cons, detectTabularHeader]
    rw [isEmpty_canonObj, sortStrings_keys_canonObj]
    by_cases he : o0.isEmpty = true
    · rw [if_pos he, if_pos he]
    · rw [if_neg he, if_neg he]
      have hta := isTabularArray_canon (o0 :: rest) (sortStrings (List.map Prod.fst o0)) hnd
      simp only [List.map_cons] at hta
      simp only [hta]

theorem row_canonObj (o : List (String × Value)) (K : List String) (d : String)
    (hnd : (o.map Prod.fst).Nodup) :
    joinEncodedValues (K.map (fun k => ((canonObj o).lookup k).getD .null)) d =
      joinEncodedValues (K.map (fun k => (o.lookup k).getD .null)) d := by
  simp only [joinEncodedValues, List.map_map]
  congr 1
  apply List.map_congr_left
  intro k hk
  show encodePrimitive (((canonObj o).lookup k).getD .null) d =
    encodePrimitive ((o.lookup k).getD .null) d
  rw [lookup_canonObj o hnd k]
  cases o.lookup k with
  | none => rfl
  | some v =>
    simp only [Option.map_some', Option.getD_some]
    exact encodePrimitive_canon v d

theorem writeTabularRows_canon (objs : List (List (String × Value))) (K : List String)
    (ind : String) (depth : Nat) (opts : EncodeOptions)
    (hnd : ∀ o ∈ objs, (o.map Prod.fst).Nodup) :
    writeTabularRows (objs.map canonObj) K ind depth opts =
      writeTabularRows objs K ind depth opts := by
  simp only [writeTabularRows, List.map_map]
  apply List.map_congr_left
  intro o ho
  show pushLine ind depth (joinEncodedValues
    (K.map (fun k => ((canonObj o).lookup k).getD .null)) opts.Delimiter) =
    pushLine ind depth (joinEncodedValues
      (K.map (fun k => (o.lookup k).getD .null)) opts.Delimiter)
  rw [row_canonObj o K opts.Delimiter (hnd o ho)]

theorem length_canonList (l : List Value) : (canonList l).length = l.length := by
  rw [canonList_eq, List.length_map]

theorem isEmpty_canonList (l : List Value) : (canonList l).isEmpty = l.isEmpty := by
  cases l with
  | nil => rw [canonList]
  | cons v r => rw [canonList_eq]; rfl

theorem isArrayOfPrimitives_canonList (l : List Value) :
    isArrayOfPrimitives (canonList l) = isArrayOfPrimitives l := by
  rw [canonList_eq]
  simp only [isArrayOfPrimitives, List.all_map]
  apply all_congr_mem
  intro v hv
  exact isPrimitive_canon v

theorem isArrayOfArrays_canonList (l : List Value) :
    isArrayOfArrays (canonList l) = isArrayOfArrays l := by
  rw [canonList_eq]
  simp only [isArrayOfArrays, List.all_map]
  apply all_congr_mem
  intro v hv
  exact isArray_canon v

theorem isArrayOfObjects_canonList (l : List Value) :
    isArrayOfObjects (canonList l) = isArrayOfObjects l := by
  rw [canonList_eq]
  simp only [isArrayOfObjects, List.all_map]
  apply all_congr_mem
  intro v hv
  exact isObject_canon v

theorem allPrimitiveSubArrays_canonList (l : List Value) :
    allPrimitiveSubArrays (canonList l) = allPrimitiveSubArrays l := by
  rw [canonList_eq]
  simp only [allPrimitiveSubArrays, List.all_map]
  apply all_congr_mem
  intro v hv
  cases v <;> simp [canon]
  exact isArrayOfPrimitives_canonList _

theorem joinEncodedValues_canonList (l : List Value) (d : String) :
    joinEncodedValues (canonList l) d = joinEncodedValues l d := by
  rw [canonList_eq, joinEncodedValues, joinEncodedValues, List.map_map]
  congr 1
  apply List.map_congr_left
  intro v hv
  simp only [Function.comp]
  exact encodePrimitive_canon v d

theorem formatInlineArray_canon (l : List Value) (d keyPre : String) (m : Bool) :
    formatInlineArray (canonList l) d keyPre m = formatInlineArray l d keyPre m := by
  rw [formatInlineArray, formatInlineArray, length_canonList, isEmpty_canonList,
    joinEncodedValues_canonList]

theorem map_toObj_canonList (l : List Value) (h : isArrayOfObjects l = true) :
    (canonList l).map toObj = (l.map toObj).map canonObj := by
  induction l with
  | nil => simp [canonList]
  | cons v r ih =>
    simp only [isArrayOfObjects, List.all_cons, Bool.and_eq_true] at h
    cases v with
    | obj o =>
      rw [canonList]
      simp only [List.map_cons]
      rw [canon_obj_eq]
      rw [ih (by simp [isArrayOfObjects, h.2])]
      rfl
    | null => simp [isObject] at h
    | bool b => simp [isObject] at h
    | num n => simp [isObject] at h
    | str s => simp [isObject] at h
    | arr a => simp [isObject] at h

theorem WFbPairs_sortPairs (l : List (String × Value)) (h : WFbPairs l = true) :
    WFbPairs (sortPairs l) = true := by
  rw [WFbPairs_iff] at h ⊢
  intro p hp
  exact h p ((sortPairs_perm l).mem_iff.mp hp)

theorem nodup_keys_of_WFbList {arr : List Value} (hobj : isArrayOfObjects arr = true)
    (hwf : WFbList arr = true) : ∀ o ∈ arr.map toObj, (o.map Prod.fst).Nodup := by
  intro o ho
  obtain ⟨v, hv, hvo⟩ := List.mem_map.mp ho
  have hwfv := (WFbList_iff arr).mp hwf v hv
  have hov : isObject v = true := by
    simp only [isArrayOfObjects, List.all_eq_true] at hobj
    exact hobj v hv
  cases v with
  | obj l =>
    rw [WFb] at hwfv
    simp only [Bool.and_eq_true] at hwfv
    rw [← hvo]
    exact (nodupKeysB_iff l).mp hwfv.1
  | null => simp [isObject] at hov
  | bool b => simp [isObject] at hov
  | num m => simp [isObject] at hov
  | str s => simp [isObject] at hov
  | arr a => simp [isObject] at hov

theorem encodeArrayOfObjectsAsTabular_canon (key : String)
    (objs : List (List (String × Value))) (K : List String) (ind : String) (depth : Nat)
    (opts : EncodeOptions) (hnd : ∀ o ∈ objs, (o.map Prod.fst).Nodup) :
    encodeArrayOfObjectsAsTabular key (objs.map canonObj) K ind depth opts =
      encodeArrayOfObjectsAsTabular key objs K ind depth opts := by
  simp only [encodeArrayOfObjectsAsTabular, List.length_map]
  rw [writeTabularRows_canon objs K ind (depth + 1) opts hnd]

theorem arrays_items_canon (l : List Value) (ind : String) (depth : Nat)
    (opts : EncodeOptions) :
    ((canonList l).flatMap (fun item =>
      match item with
      | .arr a =>
        if isArrayOfPrimitives a then
          [pushLine ind (depth + 1)
            (ListItemBullet ++ formatInlineArray a opts.Delimiter "" opts.LengthMarker)]
        else []
      | _ => [])) =
    (l.flatMap (fun item =>
      match item with
      | .arr a =>
        if isArrayOfPrimitives a then
          [pushLine ind (depth + 1)
            (ListItemBullet ++ formatInlineArray a opts.Delimiter "" opts.LengthMarker)]
        else []
      | _ => [])) := by
  induction l with
  | nil => rw [canonList]
  | cons v r ih =>
    rw [canonList]
    rw [List.flatMap_cons, List.flatMap_cons, ih]
    congr 1
    cases v with
    | arr a =>
      rw [show canon (.arr a) = .arr (canonList a) from by rw [canon]]

      rw [show (match Value.arr (canonList a) with
        | .arr a =>
          if isArrayOfPrimitives a then
            [pushLine ind (depth + 1)
              (ListItemBullet ++ formatInlineArray a opts.Delimiter "" opts.LengthMarker)]
          else []
        | _ => ([] : List String)) =
        (if isArrayOfPrimitives (canonList a) then
          [pushLine ind (depth + 1)
            (ListItemBullet ++ formatInlineArray (canonList a) opts.Delimiter "" opts.LengthMarker)]
        else []) from rfl]
      rw [isArrayOfPrimitives_canonList, formatInlineArray_canon]
    | null => rw [canon_prim .null rfl]
    | bool b => rw [canon_prim (.bool b) rfl]
    | num m => rw [canon_prim (.num m) rfl]
    | str s => rw [canon_prim (.str s) rfl]
    | obj o => rw [canon_obj_eq]

theorem encodeArrayOfArraysAsListItems_canon (key : String) (arr : List Value)
    (ind : String) (depth : Nat) (opts : EncodeOptions) :
    encodeArrayOfArraysAsListItems key (canonList arr) ind depth opts =
      encodeArrayOfArraysAsListItems key arr ind depth opts := by
  simp only [encodeArrayOfArraysAsListItems, length_canonList]
  rw [arrays_items_canon]

theorem canon_arr (l : List Value) : canon (.arr l) = .arr (canonList l) := by
  rw [canon]

theorem canon_invariance : ∀ n : Nat,
    (∀ (l : List (String × Value)) (ind : String) (depth : Nat) (opts : EncodeOptions),
      sizeOf l ≤ n → WFbPairs l = true →
      encodePairs (canonPairsVals l) ind depth opts = encodePairs l ind depth opts) ∧
    (∀ (l : List (String × Value)) (ind : String) (depth : Nat) (opts : EncodeOptions),
      sizeOf l ≤ n → WFbPairs l = true →
      encodeObject (canonObj l) ind depth opts = encodeObject l ind depth opts) ∧
    (∀ (items : List Value) (ind : String) (depth : Nat) (opts : EncodeOptions),
      sizeOf items ≤ n → WFbList items = true →
      encodeListItemsLoop (canonList items) ind depth opts =
        encodeListItemsLoop items ind depth opts) ∧
    (∀ (items : List Value) (key ind : String) (depth : Nat) (opts : EncodeOptions),
      sizeOf items ≤ n → WFbList items = true →
      encodeMixedArrayAsListItems key (canonList items) ind depth opts =
        encodeMixedArrayAsListItems key items ind depth opts) ∧
    (∀ (items : List Value) (ind : String) (depth : Nat) (opts : EncodeOptions),
      sizeOf items ≤ n → WFbList items = true →
      objItemsLoop (canonList items) ind depth opts = objItemsLoop items ind depth opts) ∧
    (∀ (items : List Value) (ind : String) (depth : Nat) (opts : EncodeOptions),
      sizeOf items ≤ n → WFbList items = true →
      complexItemsLoop (canonList items) ind depth opts =
        complexItemsLoop items ind depth opts) ∧
    (∀ (obj : List (String × Value)) (ind : String) (depth : Nat) (opts : EncodeOptions),
      sizeOf obj ≤ n → nodupKeysB obj = true → WFbPairs obj = true →
      encodeObjectAsListItem (canonObj obj) ind depth opts =
        encodeObjectAsListItem obj ind depth opts) ∧
    (∀ (arr : List Value) (key ind : String) (depth : Nat) (opts : EncodeOptions),
      sizeOf arr ≤ n → WFbList arr = true →
      encodeArray key (canonList arr) ind depth opts = encodeArray key arr ind depth opts) ∧
    (∀ (v : Value) (key ind : String) (depth : Nat) (opts : EncodeOptions),
      sizeOf v ≤ n → WFb v = true →
      encodeKeyValuePair key (canon v) ind depth opts =
        encodeKeyValuePair key v ind depth opts) := by
  intro n
  induction n using Nat.strong_induction_on with
  | _ n ih =>
  -- named accessors into the induction hypothesis at strictly smaller measures
  have ihP : ∀ (l : List (String × Value)), sizeOf l < n →
      ∀ (ind : String) (depth : Nat) (opts : EncodeOptions), WFbPairs l = true →
      encodePairs (canonPairsVals l) ind depth opts = encodePairs l ind depth opts :=
    fun l hl ind depth opts hwf => (ih (sizeOf l) hl).1 l ind depth opts (le_refl _) hwf
  have ihO : ∀ (l : List (String × Value)), sizeOf l < n →
      ∀ (ind : String) (depth : Nat) (opts : EncodeOptions), WFbPairs l = true →
      encodeObject (canonObj l) ind depth opts = encodeObject l ind depth opts :=
    fun l hl ind depth opts hwf => (ih (sizeOf l) hl).2.1 l ind depth opts (le_refl _) hwf
  have ihLoop : ∀ (items : List Value), sizeOf items < n →
      ∀ (ind : String) (depth : Nat) (opts : EncodeOptions), WFbList items = true →
      encodeListItemsLoop (canonList items) ind depth opts =
        encodeListItemsLoop items ind depth opts :=
    fun l hl ind depth opts hwf => (ih (sizeOf l) hl).2.2.1 l ind depth opts (le_refl _) hwf
  have ihObjLoop : ∀ (items : List Value), sizeOf items < n →
      ∀ (ind : String) (depth : Nat) (opts : EncodeOptions), WFbList items = true →
      objItemsLoop (canonList items) ind depth opts = objItemsLoop items ind depth opts :=
    fun l hl ind depth opts hwf =>
      (ih (sizeOf l) hl).2.2.2.2.1 l ind depth opts (le_refl _) hwf
  have ihCplxLoop : ∀ (items : List Value), sizeOf items < n →
      ∀ (ind : String) (depth : Nat) (opts : EncodeOptions), WFbList items = true →
      complexItemsLoop (canonList items) ind depth opts =
        complexItemsLoop items ind depth opts :=
    fun l hl ind depth opts hwf =>
      (ih (sizeOf l) hl).2.2.2.2.2.1 l ind depth opts (le_refl _) hwf
  have ihOLI : ∀ (obj : List (String × Value)), sizeOf obj < n →
      ∀ (ind : String) (depth : Nat) (opts : EncodeOptions),
      nodupKeysB obj = true → WFbPairs obj = true →
      encodeObjectAsListItem (canonObj obj) ind depth opts =
        encodeObjectAsListItem obj ind depth opts :=
    fun l hl ind depth opts hnd hwf =>
      (ih (sizeOf l) hl).2.2.2.2.2.2.1 l ind depth opts (le_refl _) hnd hwf
  have ihArr : ∀ (arr : List Value), sizeOf arr < n →
      ∀ (key ind : String) (depth : Nat) (opts : EncodeOptions), WFbList arr = true →
      encodeArray key (canonList arr) ind depth opts = encodeArray key arr ind depth opts :=
    fun l hl key ind depth opts hwf =>
      (ih (sizeOf l) hl).2.2.2.2.2.2.2.1 l key ind depth opts (le_refl _) hwf
  have ihK : ∀ (v : Value), sizeOf v < n →
      ∀ (key ind : String) (depth : Nat) (opts : EncodeOptions), WFb v = true →
      encodeKeyValuePair key (canon v) ind depth opts =
        encodeKeyValuePair key v ind depth opts :=
    fun v hv key ind depth opts hwf =>
      (ih (sizeOf v) hv).2.2.2.2.2.2.2.2 v key ind depth opts (le_refl _) hwf
  have SP : ∀ (l : List (String × Value)) (ind : String) (depth : Nat) (opts : EncodeOptions),
      sizeOf l ≤ n → WFbPairs l = true →
      encodePairs (canonPairsVals l) ind depth opts = encodePairs l ind depth opts := by
    intro l ind depth opts hsz hwf
    cases l with
    | nil => rw [canonPairsVals]
    | cons p r =>
      obtain ⟨k, x⟩ := p
      rw [canonPairsVals]
      rw [encodePairs, encodePairs]
      rw [WFbPairs] at hwf
      simp only [Bool.and_eq_true] at hwf
      simp only [List.cons.sizeOf_spec, Prod.mk.sizeOf_spec] at hsz
      rw [ihK x (by omega) k ind depth opts hwf.1,
        ihP r (by omega) ind depth opts hwf.2]
  have SO : ∀ (l : List (String × Value)) (ind : String) (depth : Nat) (opts : EncodeOptions),
      sizeOf l ≤ n → WFbPairs l = true →
      encodeObject (canonObj l) ind depth opts = encodeObject l ind depth opts := by
    intro l ind depth opts hsz hwf
    rw [encodeObject, encodeObject, canonObj, sortPairs_idem, canonPairsVals_eq,
      sortPairs_map_canonPair, ← canonPairsVals_eq]
    exact SP (sortPairs l) ind depth opts (by rw [sortPairs_sizeOf]; exact hsz)
      (WFbPairs_sortPairs l hwf)
  have SLoop : ∀ (items : List Value) (ind : String) (depth : Nat) (opts : EncodeOptions),
      sizeOf items ≤ n → WFbList items = true →
      encodeListItemsLoop (canonList items) ind depth opts =
        encodeListItemsLoop items ind depth opts := by
    intro items ind depth opts hsz hwf
    cases items with
    | nil => rw [canonList]
    | cons item rest =>
      rw [canonList]
      rw [WFbList] at hwf
      simp only [Bool.and_eq_true] at hwf
      simp only [List.cons.sizeOf_spec] at hsz
      have hrest := ihLoop rest (by omega) ind depth opts hwf.2
      cases item with
      | null =>
        rw [canon_prim .null rfl, encodeListItemsLoop, encodeListItemsLoop, hrest] <;> simp
      | bool b =>
        rw [canon_prim (.bool b) rfl, encodeListItemsLoop, encodeListItemsLoop, hrest] <;> simp
      | num m =>
        rw [canon_prim (.num m) rfl, encodeListItemsLoop, encodeListItemsLoop, hrest] <;> simp
      | str s =>
        rw [canon_prim (.str s) rfl, encodeListItemsLoop, encodeListItemsLoop, hrest] <;> simp
      | arr a =>
        rw [canon_arr, encodeListItemsLoop, encodeListItemsLoop, hrest,
          isArrayOfPrimitives_canonList, formatInlineArray_canon]
      | obj o =>
        rw [canon_obj_eq, encodeListItemsLoop, encodeListItemsLoop, hrest]
        have hw := hwf.1
        rw [WFb] at hw
        simp only [Bool.and_eq_true] at hw
        simp only [Value.obj.sizeOf_spec] at hsz
        rw [ihOLI o (by omega) ind (depth + 1) opts hw.1 hw.2]
  have SMixed : ∀ (items : List Value) (key ind : String) (depth : Nat)
      (opts : EncodeOptions), sizeOf items ≤ n → WFbList items = true →
      encodeMixedArrayAsListItems key (canonList items) ind depth opts =
        encodeMixedArrayAsListItems key items ind depth opts := by
    intro items key ind depth opts hsz hwf
    rw [encodeMixedArrayAsListItems, encodeMixedArrayAsListItems, length_canonList,
      SLoop items ind depth opts hsz hwf]
  have SObjLoop : ∀ (items : List Value) (ind : String) (depth : Nat)
      (opts : EncodeOptions), sizeOf items ≤ n → WFbList items = true →
      objItemsLoop (canonList items) ind depth opts = objItemsLoop items ind depth opts := by
    intro items ind depth opts hsz hwf
    cases items with
    | nil => rw [canonList]
    | cons item rest =>
      rw [canonList]
      rw [WFbList] at hwf
      simp only [Bool.and_eq_true] at hwf
      simp only [List.cons.sizeOf_spec] at hsz
      have hrest := ihObjLoop rest (by omega) ind depth opts hwf.2
      cases item with
      | null => rw [canon_prim .null rfl, objItemsLoop, objItemsLoop, hrest] <;> simp
      | bool b => rw [canon_prim (.bool b) rfl, objItemsLoop, objItemsLoop, hrest] <;> simp
      | num m => rw [canon_prim (.num m) rfl, objItemsLoop, objItemsLoop, hrest] <;> simp
      | str s => rw [canon_prim (.str s) rfl, objItemsLoop, objItemsLoop, hrest] <;> simp
      | arr a => rw [canon_arr, objItemsLoop, objItemsLoop, hrest] <;> simp
      | obj o =>
        rw [canon_obj_eq, objItemsLoop, objItemsLoop, hrest]
        have hw := hwf.1
        rw [WFb] at hw
        simp only [Bool.and_eq_true] at hw
        simp only [Value.obj.sizeOf_spec] at hsz
        rw [ihOLI o (by omega) ind depth opts hw.1 hw.2]
  have SCplxLoop : ∀ (items : List Value) (ind : String) (depth : Nat)
      (opts : EncodeOptions), sizeOf items ≤ n → WFbList items = true →
      complexItemsLoop (canonList items) ind depth opts =
        complexItemsLoop items ind depth opts := by
    intro items ind depth opts hsz hwf
    cases items with
    | nil => rw [canonList]
    | cons item rest =>
      rw [canonList]
      rw [WFbList] at hwf
      simp only [Bool.and_eq_true] at hwf
      simp only [List.cons.sizeOf_spec] at hsz
      have hrest := ihCplxLoop rest (by omega) ind depth opts hwf.2
      cases item with
      | null =>
        rw [canon_prim .null rfl, complexItemsLoop, complexItemsLoop, hrest] <;> simp
      | bool b =>
        rw [canon_prim (.bool b) rfl, complexItemsLoop, complexItemsLoop, hrest] <;> simp
      | num m =>
        rw [canon_prim (.num m) rfl, complexItemsLoop, complexItemsLoop, hrest] <;> simp
      | str s =>
        rw [canon_prim (.str s) rfl, complexItemsLoop, complexItemsLoop, hrest] <;> simp
      | arr a =>
        rw [canon_arr, complexItemsLoop, complexItemsLoop, hrest,
          isArrayOfPrimitives_canonList, formatInlineArray_canon]
      | obj o =>
        rw [canon_obj_eq, complexItemsLoop, complexItemsLoop, hrest]
        have hw := hwf.1
        rw [WFb] at hw
        simp only [Bool.and_eq_true] at hw
        simp only [Value.obj.sizeOf_spec] at hsz
        rw [ihOLI o (by omega) ind depth opts hw.1 hw.2]
  have SOLI : ∀ (obj : List (String × Value)) (ind : String) (depth : Nat)
      (opts : EncodeOptions), sizeOf obj ≤ n → nodupKeysB obj = true →
      WFbPairs obj = true →
      encodeObjectAsListItem (canonObj obj) ind depth opts =
        encodeObjectAsListItem obj ind depth opts := by
    intro obj ind depth opts hsz hnd hwf
    have hkey : sortPairs (canonObj obj) = canonPairsVals (sortPairs obj) := by
      rw [canonObj, sortPairs_idem, canonPairsVals_eq, sortPairs_map_canonPair,
        ← canonPairsVals_eq]
    cases hsp : sortPairs obj with
    | nil =>
      have h1 : sortPairs (canonObj obj) = [] := by rw [hkey, hsp, canonPairsVals]
      rw [encodeObjectAsListItem_nil _ _ _ _ h1, encodeObjectAsListItem_nil _ _ _ _ hsp]
    | cons p rest =>
      obtain ⟨fk, fv⟩ := p
      have h1 : sortPairs (canonObj obj) = (fk, canon fv) :: canonPairsVals rest := by
        rw [hkey, hsp, canonPairsVals]
      have hs := sortPairs_sizeOf obj
      rw [hsp] at hs
      simp only [List.cons.sizeOf_spec, Prod.mk.sizeOf_spec] at hs
      have hwf2 := WFbPairs_sortPairs obj hwf
      rw [hsp, WFbPairs] at hwf2
      simp only [Bool.and_eq_true] at hwf2
      have hfv_wf := hwf2.1
      have hrest_wf := hwf2.2
      have hpairs := ihP rest (by omega) ind (depth + 1) opts hrest_wf
      cases fv with
      | null =>
        rw [canon_prim .null rfl] at h1
        rw [encodeObjectAsListItem_prim _ _ _ _ _ _ _ h1 rfl,
          encodeObjectAsListItem_prim _ _ _ _ _ _ _ hsp rfl, hpairs]
      | bool b =>
        rw [canon_prim (.bool b) rfl] at h1
        rw [encodeObjectAsListItem_prim _ _ _ _ _ _ _ h1 rfl,
          encodeObjectAsListItem_prim _ _ _ _ _ _ _ hsp rfl, hpairs]
      | num m =>
        rw [canon_prim (.num m) rfl] at h1
        rw [encodeObjectAsListItem_prim _ _ _ _ _ _ _ h1 rfl,
          encodeObjectAsListItem_prim _ _ _ _ _ _ _ hsp rfl, hpairs]
      | str s =>
        rw [canon_prim (.str s) rfl] at h1
        rw [encodeObjectAsListItem_prim _ _ _ _ _ _ _ h1 rfl,
          encodeObjectAsListItem_prim _ _ _ _ _ _ _ hsp rfl, hpairs]
      | arr a =>
        rw [canon_arr] at h1
        rw [encodeObjectAsListItem_arr _ _ _ _ _ _ _ h1,
          encodeObjectAsListItem_arr _ _ _ _ _ _ _ hsp, hpairs]
        congr 1
        rw [isArrayOfPrimitives_canonList, isArrayOfObjects_canonList]
        simp only [Value.arr.sizeOf_spec] at hs
        have hwfa : WFbList a = true := by
          have := hfv_wf
          rw [WFb] at this
          exact this
        by_cases hap : isArrayOfPrimitives a = true
        · rw [if_pos hap, if_pos hap, formatInlineArray_canon]
        · rw [if_neg hap, if_neg hap]
          by_cases hao : isArrayOfObjects a = true
          · rw [if_pos hao, if_pos hao]
            have hnda := nodup_keys_of_WFbList hao hwfa
            rw [map_toObj_canonList a hao, detectTabularHeader_canon _ hnda]
            cases hdet : detectTabularHeader (a.map toObj) with
            | some K =>
              simp only [length_canonList]
              rw [writeTabularRows_canon _ _ _ _ _ hnda]
            | none =>
              simp only [length_canonList]
              rw [ihObjLoop a (by omega) ind (depth + 1) opts hwfa]
          · rw [if_neg hao, if_neg hao, length_canonList,
              ihCplxLoop a (by omega) ind (depth + 1) opts hwfa]
      | obj no =>
        rw [canon_obj_eq] at h1
        rw [encodeObjectAsListItem_obj _ _ _ _ _ _ _ h1,
          encodeObjectAsListItem_obj _ _ _ _ _ _ _ hsp, hpairs]
        congr 1
        rw [isEmpty_canonObj]
        simp only [Value.obj.sizeOf_spec] at hs
        have hw := hfv_wf
        rw [WFb] at hw
        simp only [Bool.and_eq_true] at hw
        by_cases hne : no.isEmpty = true
        · rw [if_pos hne, if_pos hne]
        · rw [if_neg hne, if_neg hne,
            ihO no (by omega) ind (depth + 2) opts hw.2]
  have SArr : ∀ (arr : List Value) (key ind : String) (depth : Nat)
      (opts : EncodeOptions), sizeOf arr ≤ n → WFbList arr = true →
      encodeArray key (canonList arr) ind depth opts =
        encodeArray key arr ind depth opts := by
    intro arr key ind depth opts hsz hwf
    rw [encodeArray, encodeArray, isEmpty_canonList, isArrayOfPrimitives_canonList,
      isArrayOfArrays_canonList, allPrimitiveSubArrays_canonList,
      isArrayOfObjects_canonList]
    by_cases h1 : arr.isEmpty = true
    · rw [if_pos h1, if_pos h1]
    · rw [if_neg h1, if_neg h1]
      by_cases h2 : isArrayOfPrimitives arr = true
      · rw [if_pos h2, if_pos h2, encodeInlinePrimitiveArray,
          encodeInlinePrimitiveArray, formatInlineArray_canon]
      · rw [if_neg h2, if_neg h2]
        by_cases h3 : (isArrayOfArrays arr && allPrimitiveSubArrays arr) = true
        · rw [if_pos h3, if_pos h3, encodeArrayOfArraysAsListItems_canon]
        · rw [if_neg h3, if_neg h3]
          by_cases h4 : isArrayOfObjects arr = true
          · rw [if_pos h4, if_pos h4]
            have hnda := nodup_keys_of_WFbList h4 hwf
            rw [map_toObj_canonList arr h4, detectTabularHeader_canon _ hnda]
            cases hdet : detectTabularHeader (arr.map toObj) with
            | some K =>
              exact encodeArrayOfObjectsAsTabular_canon key (arr.map toObj) K ind depth opts hnda
            | none =>
              exact SMixed arr key ind depth opts hsz hwf
          · rw [if_neg h4, if_neg h4, SMixed arr key ind depth opts hsz hwf]
  have SK : ∀ (v : Value) (key ind : String) (depth : Nat) (opts : EncodeOptions),
      sizeOf v ≤ n → WFb v = true →
      encodeKeyValuePair key (canon v) ind depth opts =
        encodeKeyValuePair key v ind depth opts := by
    intro v key ind depth opts hsz hwf
    cases v with
    | null => rw [canon_prim .null rfl]
    | bool b => rw [canon_prim (.bool b) rfl]
    | num m => rw [canon_prim (.num m) rfl]
    | str s => rw [canon_prim (.str s) rfl]
    | arr a =>
      rw [canon_arr, encodeKeyValuePair, encodeKeyValuePair]
      simp only [Value.arr.sizeOf_spec] at hsz
      rw [WFb] at hwf
      exact ihArr a (by omega) key ind depth opts hwf
    | obj o =>
      rw [canon_obj_eq, encodeKeyValuePair, encodeKeyValuePair, isEmpty_canonObj]
      simp only [Value.obj.sizeOf_spec] at hsz
      rw [WFb] at hwf
      simp only [Bool.and_eq_true] at hwf
      by_cases hne : o.isEmpty = true
      · rw [if_pos hne, if_pos hne]
      · rw [if_neg hne, if_neg hne,
          ihO o (by omega) ind (depth + 1) opts hwf.2]
  exact ⟨SP, SO, SLoop, SMixed, SObjLoop, SCplxLoop, SOLI, SArr, SK⟩

/-- Encoding a well-formed value is invariant under canonicalization of
its object pair lists (top-level entry point). -/
theorem encodeValue_canon (v : Value) (opts : EncodeOptions) (hwf : WFb v = true) :
    encodeValue (canon v) opts = encodeValue v opts := by
  cases v with
  | null => rw [canon_prim .null rfl]
  | bool b => rw [canon_prim (.bool b) rfl]
  | num m => rw [canon_prim (.num m) rfl]
  | str s => rw [canon_prim (.str s) rfl]
  | arr a =>
    rw [canon_arr]
    rw [WFb] at hwf
    simp only [encodeValue, isPrimitive, Bool.false_eq_true, if_false]
    cases hrep : goRepeat " " opts.Indent with
    | none => rfl
    | some ind =>
      exact congrArg (fun l => some (String.intercalate "\n" l))
        ((canon_invariance (sizeOf a)).2.2.2.2.2.2.2.1 a "" ind 0 opts (le_refl _) hwf)
  | obj o =>
    rw [canon_obj_eq]
    rw [WFb] at hwf
    simp only [Bool.and_eq_true] at hwf
    simp only [encodeValue, isPrimitive, Bool.false_eq_true, if_false]
    cases hrep : goRepeat " " opts.Indent with
    | none => rfl
    | some ind =>
      exact congrArg (fun l => some (String.intercalate "\n" l))
        ((canon_invariance (sizeOf o)).2.1 o ind 0 opts (le_refl _) hwf.2)

/-- **C4.** Determinism / key-order independence of the encoder: for
well-formed value trees (each object's keys unique, as the value model
requires), any two trees that agree up to reordering of object entries
— that is, with the same canonical form under recursive key sorting —
encode to identical output for every options record.  In particular the
output is independent of the insertion or iteration order of object
keys, because every object's keys are emitted in ascending byte-value
order; and a second run on the same tree trivially has the same
canonical form, so repeated runs give byte-identical output. -/
theorem encode_deterministic (v1 v2 : Value) (opts : EncodeOptions)
    (h1 : WFb v1 = true) (h2 : WFb v2 = true) (hc : canon v1 = canon v2) :
    Encode v1 opts = Encode v2 opts := by
  show encodeValue v1 opts = encodeValue v2 opts
  rw [← encodeValue_canon v1 opts h1, ← encodeValue_canon v2 opts h2, hc]

/-- Witness for `encode_deterministic`: the object rendered from pair
order `b, a` encodes identically to the one from pair order `a, b`. -/
theorem encode_deterministic_witness :
    WFb (.obj [("b", .num 2), ("a", .str "x")]) = true ∧
    WFb (.obj [("a", .str "x"), ("b", .num 2)]) = true ∧
    canon (.obj [("b", .num 2), ("a", .str "x")]) =
      canon (.obj [("a", .str "x"), ("b", .num 2)]) ∧
    Encode (.obj [("b", .num 2), ("a", .str "x")]) defaultOptions =
      Encode (.obj [("a", .str "x"), ("b", .num 2)]) defaultOptions := by
  refine ⟨?_, ?_, ?_, ?_⟩
  · simp [WFb, WFbList, WFbPairs, nodupKeysB]
  · simp [WFb, WFbList, WFbPairs, nodupKeysB]
  · rw [canon_obj_eq, canon_obj_eq, canonObj, canonObj, canonPairsVals_eq,
      canonPairsVals_eq]
    simp only [List.map_cons, List.map_nil]
    rw [canon_prim (.num 2) rfl, canon_prim (.str "x") rfl]
    rfl
  · exact encode_deterministic _ _ defaultOptions
      (by simp [WFb, WFbList, WFbPairs, nodupKeysB])
      (by simp [WFb, WFbList, WFbPairs, nodupKeysB])
      (by rw [canon_obj_eq, canon_obj_eq, canonObj, canonObj, canonPairsVals_eq,
          canonPairsVals_eq]
          simp only [List.map_cons, List.map_nil]
          rw [canon_prim (.num 2) rfl, canon_prim (.str "x") rfl]
          rfl)
